import Mathlib

/-!
Verification of the vacation-planner optimizer and reverse block conversion.

The Go sources are embedded shallowly:

* A calendar date is an `Int`: the number of days relative to an arbitrary
  origin whose weekday is Sunday.  Go's `time.AddDate(0, 0, n)` is `+ n`, and
  `time.Time.Weekday()` is the residue mod 7 (Go numbers Sunday = 0).  The Go
  code formats dates as ISO "YYYY-MM-DD" strings and compares / sorts those
  strings; on such fixed-width strings, string equality and lexicographic
  order coincide with date equality and chronological order, so the string
  layer is dropped and dates are kept as `Int` throughout.
* `[]string` work weeks are kept as `List String`, matching the Go code's
  string comparisons against weekday names.
* Holiday records carry only their parsed date (`Int`); names and types play
  no role in any of the functions modelled here (`holidays.IsHoliday` only
  compares the formatted date against each record's date).
* Go `int` counters that are only ever incremented (`TotalDays`,
  `VacationDaysUsed`) are `Nat`; the vacation-day budget, which can be
  negative, is `Int`.
* Go's `sort.Slice` runs a deterministic comparison sort; it is modelled with
  `List.mergeSort`.  The float64 efficiency/score comparisons are modelled by
  the equivalent integer cross-multiplied comparisons (exact for the
  candidates that reach the sorts, all of which have `vacationDaysUsed > 0`).
-/

namespace VacationPlanner

/-- Go `time.Weekday` (Sunday = 0 .. Saturday = 6). -/
inductive Weekday : Type where
  | sunday | monday | tuesday | wednesday | thursday | friday | saturday
deriving DecidableEq, Repr

/-- Weekday of a date, with day 0 a Sunday; `AddDate(0,0,1)` advances it by
one, cyclically, exactly as the Gregorian calendar does. -/
def weekdayOf (d : Int) : Weekday :=
  match (d % 7).toNat with
  | 0 => .sunday
  | 1 => .monday
  | 2 => .tuesday
  | 3 => .wednesday
  | 4 => .thursday
  | 5 => .friday
  | _ => .saturday

/-- Go `weekdayToString` from the optimizer package (lower-case names). -/
def weekdayToString : Weekday → String
  | .monday => "monday"
  | .tuesday => "tuesday"
  | .wednesday => "wednesday"
  | .thursday => "thursday"
  | .friday => "friday"
  | .saturday => "saturday"
  | .sunday => "sunday"

/-- Go `time.Weekday.String()` (capitalised names), used by `datesToBlocks`. -/
def goWeekdayName : Weekday → String
  | .monday => "Monday"
  | .tuesday => "Tuesday"
  | .wednesday => "Wednesday"
  | .thursday => "Thursday"
  | .friday => "Friday"
  | .saturday => "Saturday"
  | .sunday => "Sunday"

/-- ASCII lower-casing, modelling Go `strings.ToLower` on the ASCII strings
that occur here. -/
def asciiLower (s : String) : String :=
  ⟨s.data.map (fun c => if 'A' ≤ c ∧ c ≤ 'Z' then Char.ofNat (c.toNat + 32) else c)⟩

/-- `models.VacationBlock`.  `dates`, `holidays`, `weekends` hold dates in the
order the Go code appends them. -/
structure VacationBlock : Type where
  startDate : Int
  endDate : Int
  totalDays : Nat
  vacationDaysUsed : Nat
  dates : List Int
  holidays : List Int
  weekends : List Int
deriving DecidableEq, Repr

/-- The `optimizer.Optimizer` struct: year, vacation-day budget, work week
(weekday-name strings), strategy string, holiday dates, manual vacations. -/
structure Optimizer : Type where
  year : Int
  vacationDays : Int
  workWeek : List String
  strategy : String
  holidays : List Int
  manualVacations : List Int
deriving DecidableEq, Repr

/-- `Optimizer.isWeekend`: a day is a weekend unless its (lower-case) weekday
name occurs in the work week. -/
def Optimizer.isWeekend (o : Optimizer) (d : Int) : Bool :=
  !(o.workWeek.contains (weekdayToString (weekdayOf d)))

/-- `Optimizer.isWorkDay`. -/
def Optimizer.isWorkDay (o : Optimizer) (d : Int) : Bool :=
  !(o.isWeekend d)

/-- `Optimizer.isManualVacation`. -/
def Optimizer.isManualVacation (o : Optimizer) (d : Int) : Bool :=
  o.manualVacations.contains d

/-- `holidays.IsHoliday` (same body as `models.IsHoliday`): membership of the
formatted date in the holiday list. -/
def isHoliday (hol : List Int) (d : Int) : Bool :=
  hol.contains d

/-- The list of days of the inclusive range `[s, e]`, in order (empty when
`e < s`). -/
def rangeList (s e : Int) : List Int :=
  (List.range (e + 1 - s).toNat).map (fun (i : Nat) => s + (i : Int))

/-- One iteration of the day loop of `calculateBlock`: append the day, bump
`totalDays`, then classify it as weekend / holiday / budget-consuming work
day, in that priority order. -/
def calcStep (o : Optimizer) (b : VacationBlock) (d : Int) : VacationBlock :=
  let b := { b with dates := b.dates ++ [d], totalDays := b.totalDays + 1 }
  if o.isWeekend d then
    { b with weekends := b.weekends ++ [d] }
  else if isHoliday o.holidays d then
    { b with holidays := b.holidays ++ [d] }
  else if o.isWorkDay d && !(o.isManualVacation d) then
    { b with vacationDaysUsed := b.vacationDaysUsed + 1 }
  else
    b

/-- `Optimizer.calculateBlock`: walk every day of `[s, e]` inclusive. -/
def Optimizer.calculateBlock (o : Optimizer) (s e : Int) : VacationBlock :=
  (rangeList s e).foldl (calcStep o)
    { startDate := s
      endDate := e
      totalDays := 0
      vacationDaysUsed := 0
      dates := []
      holidays := []
      weekends := [] }

/-- The candidate blocks one holiday contributes in
`findBridgeOpportunities`, by its weekday, each kept only when
`VacationDaysUsed > 0`. -/
def bridgeFor (o : Optimizer) (h : Int) : List VacationBlock :=
  match weekdayOf h with
  | .monday =>
    let b := o.calculateBlock (h - 3) h
    if b.vacationDaysUsed > 0 then [b] else []
  | .tuesday =>
    let b := o.calculateBlock (h - 1) h
    if b.vacationDaysUsed > 0 then [b] else []
  | .thursday =>
    let b := o.calculateBlock h (h + 1)
    if b.vacationDaysUsed > 0 then [b] else []
  | .friday =>
    let b := o.calculateBlock h (h + 3)
    if b.vacationDaysUsed > 0 then [b] else []
  | .wednesday =>
    let b1 := o.calculateBlock (h - 2) h
    let b2 := o.calculateBlock h (h + 2)
    (if b1.vacationDaysUsed > 0 then [b1] else []) ++
      (if b2.vacationDaysUsed > 0 then [b2] else [])
  | _ => []

/-- `Optimizer.findBridgeOpportunities`: the per-holiday candidates,
accumulated over the holiday list in order. -/
def Optimizer.findBridgeOpportunities (o : Optimizer) : List VacationBlock :=
  o.holidays.foldl (fun acc h => acc ++ bridgeFor o h) []

/-- The loop of `Optimizer.findWeekStart`: step back until the weekday is
Monday.  The Go loop runs at most 6 iterations; fuel 7 makes it total. -/
def findWeekStartGo : Nat → Int → Int
  | 0, d => d
  | fuel + 1, d => if weekdayOf d = .monday then d else findWeekStartGo fuel (d - 1)

/-- `Optimizer.findWeekStart`. -/
def findWeekStart (d : Int) : Int :=
  findWeekStartGo 7 d

/-- The week-long and two-week candidates one holiday contributes in
`findAllOpportunities`. -/
def weekBlocksFor (o : Optimizer) (h : Int) : List VacationBlock :=
  let weekStart := findWeekStart h
  let weekEnd := weekStart + 6
  let block := o.calculateBlock weekStart weekEnd
  let twoWeekStart := weekStart - 7
  let block2 := o.calculateBlock twoWeekStart weekEnd
  (if block.vacationDaysUsed > 0 && block.totalDays ≥ 7 then [block] else []) ++
    (if block2.vacationDaysUsed > 0 && block2.totalDays ≥ 14 then [block2] else [])

/-- `Optimizer.deduplicateBlocks`: drop later blocks whose
(startDate, endDate) key was already seen.  The Go key is the string
`StartDate + "-" + EndDate`, which determines and is determined by the pair of
dates. -/
def dedupGo : List (Int × Int) → List VacationBlock → List VacationBlock
  | _, [] => []
  | seen, b :: rest =>
    if seen.contains (b.startDate, b.endDate) then dedupGo seen rest
    else b :: dedupGo ((b.startDate, b.endDate) :: seen) rest

/-- `Optimizer.deduplicateBlocks`. -/
def deduplicateBlocks (blocks : List VacationBlock) : List VacationBlock :=
  dedupGo [] blocks

/-- `Optimizer.findAllOpportunities`. -/
def Optimizer.findAllOpportunities (o : Optimizer) : List VacationBlock :=
  deduplicateBlocks
    (o.holidays.foldl (fun acc h => acc ++ weekBlocksFor o h) o.findBridgeOpportunities)

/-- Insertion of `x` into a list already sorted by `le`, before the first
element `y` with `le x y` (keeping earlier elements first on ties). -/
def insertLe {α : Type} (le : α → α → Bool) (x : α) : List α → List α
  | [] => [x]
  | y :: ys => if le x y then x :: y :: ys else y :: insertLe le x ys

/-- A deterministic stable comparison sort (insertion sort), modelling Go's
deterministic `sort.Slice` runs.  Every comparison sort agrees with it on
lists whose comparison keys are pairwise strict, which is the case in every
concrete evaluation below. -/
def sortBy {α : Type} (le : α → α → Bool) : List α → List α
  | [] => []
  | x :: xs => insertLe le x (sortBy le xs)

/-- The `bridgeHolidays` sort: descending efficiency
`TotalDays / VacationDaysUsed` (float64 in Go), expressed by
cross-multiplication — exact for the candidates that reach it, which all have
`vacationDaysUsed > 0`.  `leEff a b` means "a sorts no later than b". -/
def leEff (a b : VacationBlock) : Bool :=
  b.totalDays * a.vacationDaysUsed ≤ a.totalDays * b.vacationDaysUsed

/-- The `longestBlocks` sort: descending `TotalDays`. -/
def leTotal (a b : VacationBlock) : Bool :=
  b.totalDays ≤ a.totalDays

/-- The `balanced` sort: descending `0.6 * eff + 0.4 * totalDays`
(float64 in Go); multiplying through by `5 * vdu_a * vdu_b > 0` gives the
equivalent integer comparison used here. -/
def leBalanced (a b : VacationBlock) : Bool :=
  3 * b.totalDays * a.vacationDaysUsed
      + 2 * b.totalDays * b.vacationDaysUsed * a.vacationDaysUsed
    ≤ 3 * a.totalDays * b.vacationDaysUsed
      + 2 * a.totalDays * a.vacationDaysUsed * b.vacationDaysUsed

/-- The loop of `Optimizer.selectBlocks`: greedy scan with running
`usedDays` and claimed `usedDates`; early exit once the budget is reached. -/
def selectGo (o : Optimizer) : List VacationBlock → Int → List Int → List VacationBlock
  | [], _, _ => []
  | b :: rest, usedDays, usedDates =>
    if usedDays + (b.vacationDaysUsed : Int) > o.vacationDays then
      selectGo o rest usedDays usedDates
    else if b.dates.any (fun d => usedDates.contains d) then
      selectGo o rest usedDays usedDates
    else if usedDays + (b.vacationDaysUsed : Int) ≥ o.vacationDays then [b]
    else
      b :: selectGo o rest (usedDays + (b.vacationDaysUsed : Int)) (usedDates ++ b.dates)

/-- `Optimizer.selectBlocks`: `usedDays` starts at 0 and `usedDates` is
pre-seeded with the manual vacation dates. -/
def Optimizer.selectBlocks (o : Optimizer) (opportunities : List VacationBlock) :
    List VacationBlock :=
  selectGo o opportunities 0 o.manualVacations

/-- `Optimizer.bridgeHolidays`. -/
def Optimizer.bridgeHolidays (o : Optimizer) : List VacationBlock :=
  o.selectBlocks (sortBy leEff o.findBridgeOpportunities)

/-- `Optimizer.longestBlocks`. -/
def Optimizer.longestBlocks (o : Optimizer) : List VacationBlock :=
  o.selectBlocks (sortBy leTotal o.findAllOpportunities)

/-- `Optimizer.balanced`. -/
def Optimizer.balanced (o : Optimizer) : List VacationBlock :=
  o.selectBlocks (sortBy leBalanced o.findAllOpportunities)

/-- `Optimizer.Optimize`: dispatch on the strategy string, defaulting to
`balanced`. -/
def Optimizer.Optimize (o : Optimizer) : List VacationBlock :=
  if o.strategy = "bridge_holidays" then o.bridgeHolidays
  else if o.strategy = "longest_blocks" then o.longestBlocks
  else if o.strategy = "balanced" then o.balanced
  else o.balanced

/-! ## Reverse conversion: `datesToBlocks` (handlers.go)

The handler builds a lower-cased work-day lookup and an `isWeekend` closure
over it, sorts the incoming date strings, groups them into blocks (walking
weekend/holiday fillers between a block's end and the next vacation date),
creates new blocks with backward weekend/holiday expansion, and finally
expands every block forward.  The two unbounded `for {}` expansion loops are
modelled with the fuel `dtbFuel`; whenever the work week names a real weekday
the loops stop within `7 * (number of holidays + 1) + 7 ≤ dtbFuel` steps
(pigeonhole over the finite holiday list), so the fuelled model agrees with
the Go code exactly on every input on which the Go code terminates.
Unparsable input strings (`time.Parse` failures are skipped with `continue`)
are `none` entries of the input list; `sort.Strings` on the raw strings keeps
the successfully parsed dates in chronological order, so the model sorts the
parsed dates directly. -/

/-- The `isWeekend` closure of `datesToBlocks`: work-week entries are
lower-cased into `workDayMap` and looked up by the lower-cased Go weekday
name. -/
def dtbIsWeekend (ww : List String) (d : Int) : Bool :=
  !((ww.map asciiLower).contains (asciiLower (goWeekdayName (weekdayOf d))))

/-- A day `datesToBlocks` can absorb into a block as filler: weekend or
holiday. -/
def dtbFree (hol : List Int) (ww : List String) (d : Int) : Bool :=
  dtbIsWeekend ww d || hol.contains d

/-- Fuel for the two unbounded expansion loops of `datesToBlocks`. -/
def dtbFuel (hol : List Int) : Nat :=
  7 * (hol.length + 2)

/-- The inner loop of the block-extension scan: starting at
`day = b.endDate + 1`, extend with the vacation date `v` when reached, absorb
weekend/holiday fillers, stop at a gap.  Called with fuel
`(v - b.endDate).toNat`, which is exactly the number of remaining loop guards
`day ≤ v`. -/
def dtbScan (hol : List Int) (ww : List String) (v : Int) :
    Nat → VacationBlock → VacationBlock × Bool
  | 0, b => (b, false)
  | fuel + 1, b =>
    let day := b.endDate + 1
    if day = v then
      ({ b with
          endDate := v
          dates := b.dates ++ [v]
          totalDays := b.totalDays + 1
          vacationDaysUsed := b.vacationDaysUsed + 1 }, true)
    else if dtbIsWeekend ww day then
      dtbScan hol ww v fuel
        { b with
            endDate := day
            dates := b.dates ++ [day]
            totalDays := b.totalDays + 1
            weekends := b.weekends ++ [day] }
    else if hol.contains day then
      dtbScan hol ww v fuel
        { b with
            endDate := day
            dates := b.dates ++ [day]
            totalDays := b.totalDays + 1
            holidays := b.holidays ++ [day] }
    else
      (b, false)

/-- The `for i := range blocks` loop: try to extend each block in order,
keeping filler days absorbed by failed scans, and stop at the first block
that accepts `v`. -/
def dtbTry (hol : List Int) (ww : List String) (v : Int) :
    List VacationBlock → List VacationBlock × Bool
  | [] => ([], false)
  | b :: rest =>
    let r := dtbScan hol ww v ((v - b.endDate).toNat) b
    if r.2 then (r.1 :: rest, true)
    else
      let r2 := dtbTry hol ww v rest
      (r.1 :: r2.1, r2.2)

/-- The backward-expansion loop of new-block creation: walk `v - 1, v - 2, …`
while the day is a weekend or holiday, returning the new start date and the
accumulated `preDates`, `preWeekends`, `preHolidays` (each in ascending
order, as the Go code builds them by prepending). -/
def dtbBackGo (hol : List Int) (ww : List String) :
    Nat → Int → Int × List Int × List Int × List Int
  | 0, start => (start, [], [], [])
  | fuel + 1, start =>
    let c := start - 1
    if dtbIsWeekend ww c then
      let r := dtbBackGo hol ww fuel c
      (r.1, r.2.1 ++ [c], r.2.2.1 ++ [c], r.2.2.2)
    else if hol.contains c then
      let r := dtbBackGo hol ww fuel c
      (r.1, r.2.1 ++ [c], r.2.2.1, r.2.2.2 ++ [c])
    else
      (start, [], [], [])

/-- New-block creation for a vacation date no existing block accepts. -/
def dtbNewBlock (hol : List Int) (ww : List String) (v : Int) : VacationBlock :=
  let r := dtbBackGo hol ww (dtbFuel hol) v
  { startDate := r.1
    endDate := v
    totalDays := r.2.1.length + 1
    vacationDaysUsed := 1
    dates := r.2.1 ++ [v]
    holidays := r.2.2.2
    weekends := r.2.2.1 }

/-- Processing of one (parsed, sorted) vacation date. -/
def dtbStep (hol : List Int) (ww : List String) (blocks : List VacationBlock)
    (v : Int) : List VacationBlock :=
  let r := dtbTry hol ww v blocks
  if r.2 then r.1 else r.1 ++ [dtbNewBlock hol ww v]

/-- The final forward-expansion loop: absorb the trailing run of
weekend/holiday days after the block's end. -/
def dtbFwd (hol : List Int) (ww : List String) :
    Nat → VacationBlock → VacationBlock
  | 0, b => b
  | fuel + 1, b =>
    let day := b.endDate + 1
    if dtbIsWeekend ww day then
      dtbFwd hol ww fuel
        { b with
            endDate := day
            dates := b.dates ++ [day]
            totalDays := b.totalDays + 1
            weekends := b.weekends ++ [day] }
    else if hol.contains day then
      dtbFwd hol ww fuel
        { b with
            endDate := day
            dates := b.dates ++ [day]
            totalDays := b.totalDays + 1
            holidays := b.holidays ++ [day] }
    else
      b

/-- `datesToBlocks` on an already parsed, already sorted date list. -/
def datesToBlocksSorted (hol : List Int) (ww : List String)
    (sorted : List Int) : List VacationBlock :=
  (sorted.foldl (dtbStep hol ww) []).map (dtbFwd hol ww (dtbFuel hol))

/-- `datesToBlocks`: `none` input entries are the unparsable strings, skipped
by the parse-failure `continue`; the `len(vacationDates) == 0` check applies
to the raw list. -/
def datesToBlocks (hol : List Int) (ww : List String)
    (raw : List (Option Int)) : List VacationBlock :=
  if raw.isEmpty then []
  else datesToBlocksSorted hol ww (sortBy (fun a b => a ≤ b) (raw.filterMap id))

/-- The start of the backward weekend/holiday expansion from a day `d`. -/
def dtbBackPoint (hol : List Int) (ww : List String) (d : Int) : Int :=
  (dtbBackGo hol ww (dtbFuel hol) d).1

/-- The end of the forward weekend/holiday expansion from a day `d`. -/
def dtbFwdPointGo (hol : List Int) (ww : List String) : Nat → Int → Int
  | 0, d => d
  | fuel + 1, d =>
    if dtbFree hol ww (d + 1) then dtbFwdPointGo hol ww fuel (d + 1) else d

/-- The end of the forward weekend/holiday expansion from a day `d`. -/
def dtbFwdPoint (hol : List Int) (ww : List String) (d : Int) : Int :=
  dtbFwdPointGo hol ww (dtbFuel hol) d

/-! ## Specification-side definitions

These restate, in the spec's own words, the structures the refinement claims
compare against the code. -/

/-- The bridge intervals the spec prescribes for a holiday, by weekday:
Monday `[h-3, h]`, Tuesday `[h-1, h]`, Thursday `[h, h+1]`,
Friday `[h, h+3]`, Wednesday `[h-2, h]` and `[h, h+2]`, weekend none. -/
def bridgeIntervals (h : Int) : List (Int × Int) :=
  match weekdayOf h with
  | .monday => [(h - 3, h)]
  | .tuesday => [(h - 1, h)]
  | .thursday => [(h, h + 1)]
  | .friday => [(h, h + 3)]
  | .wednesday => [(h - 2, h), (h, h + 2)]
  | _ => []

/-- The spec's bridge candidates for one holiday: the blocks over
`bridgeIntervals`, each kept only if it uses at least one vacation day. -/
def bridgeSpec (o : Optimizer) (h : Int) : List VacationBlock :=
  ((bridgeIntervals h).map (fun p => o.calculateBlock p.1 p.2)).filter
    (fun b => 0 < b.vacationDaysUsed)

/-- The Monday of the Monday-to-Sunday calendar week containing `d`
(the unique Monday `m` with `m ≤ d ≤ m + 6`). -/
def mondayOf (d : Int) : Int :=
  d - (d % 7 + 6) % 7

/-- The spec's week-long candidates for one holiday: the Monday-to-Sunday
week containing it (kept if it yields at least 7 total days and uses at
least one vacation day) and the two-week window ending with that week (kept
if it yields at least 14 total days and uses at least one vacation day). -/
def weekBlocksSpec (o : Optimizer) (h : Int) : List VacationBlock :=
  let m := mondayOf h
  let wk := o.calculateBlock m (m + 6)
  let tw := o.calculateBlock (m - 7) (m + 6)
  (if 0 < wk.vacationDaysUsed ∧ 7 ≤ wk.totalDays then [wk] else []) ++
    (if 0 < tw.vacationDaysUsed ∧ 14 ≤ tw.totalDays then [tw] else [])

/-- The spec's candidate pool for the `longest_blocks` and `balanced`
strategies: all bridge opportunities plus the per-holiday week and two-week
candidates, with duplicate (same start, same end) candidates removed. -/
def allOpportunitiesSpec (o : Optimizer) : List VacationBlock :=
  deduplicateBlocks
    (o.holidays.flatMap (bridgeSpec o) ++ o.holidays.flatMap (weekBlocksSpec o))

/-! ## Basic lemmas -/

theorem rangeList_length (s e : Int) : (rangeList s e).length = (e + 1 - s).toNat := by
  rw [rangeList, List.length_map, List.length_range]

theorem mem_rangeList {s e d : Int} : d ∈ rangeList s e ↔ s ≤ d ∧ d ≤ e := by
  rw [rangeList, List.mem_map]
  constructor
  · rintro ⟨i, hi, rfl⟩
    rw [List.mem_range] at hi
    omega
  · rintro ⟨h1, h2⟩
    exact ⟨(d - s).toNat, by rw [List.mem_range]; omega, by omega⟩

theorem rangeList_append {s e v : Int} (h1 : s ≤ e + 1) (h2 : e ≤ v) :
    rangeList s e ++ rangeList (e + 1) v = rangeList s v := by
  unfold rangeList
  rw [show (v + 1 - s).toNat = (e + 1 - s).toNat + (v + 1 - (e + 1)).toNat by omega,
    List.range_add, List.map_append, List.map_map]
  congr 1
  apply List.map_congr_left
  intro i hi
  simp only [Function.comp_apply]
  omega

theorem rangeList_nodup (s e : Int) : (rangeList s e).Nodup := by
  rw [rangeList]
  refine List.Nodup.map ?_ (List.nodup_range _)
  intro a b hab
  simp only at hab
  omega

theorem rangeList_sorted (s e : Int) : (rangeList s e).Pairwise (· < ·) := by
  rw [rangeList]
  refine List.Pairwise.map _ ?_ (List.pairwise_lt_range _)
  intro a b hab
  omega

/-- Accumulating appends in a fold is a `flatMap`. -/
theorem foldl_append_flatMap {α β : Type} (f : α → List β) :
    ∀ (l : List α) (init : List β),
      l.foldl (fun acc x => acc ++ f x) init = init ++ l.flatMap f
  | [], init => by simp
  | x :: l, init => by
    simp only [List.foldl_cons, List.flatMap_cons, foldl_append_flatMap f l,
      List.append_assoc]

/-! ## `calculateBlock` -/

/-- The classification test that makes a day of a block consume a vacation
day: a work day that is neither a holiday nor a manual vacation. -/
def consumesDay (o : Optimizer) (d : Int) : Bool :=
  o.isWorkDay d && !(isHoliday o.holidays d) && !(o.isManualVacation d)

theorem calcStep_fields (o : Optimizer) (b : VacationBlock) (d : Int) :
    (calcStep o b d).dates = b.dates ++ [d] ∧
      (calcStep o b d).totalDays = b.totalDays + 1 ∧
      (calcStep o b d).vacationDaysUsed
        = b.vacationDaysUsed + (if consumesDay o d then 1 else 0) ∧
      (calcStep o b d).startDate = b.startDate ∧
      (calcStep o b d).endDate = b.endDate := by
  simp only [calcStep, consumesDay, Optimizer.isWorkDay]
  by_cases hw : o.isWeekend d <;> by_cases hh : isHoliday o.holidays d <;>
    by_cases hm : o.isManualVacation d <;> simp [hw, hh, hm]

theorem calcFold (o : Optimizer) :
    ∀ (days : List Int) (b : VacationBlock),
      (days.foldl (calcStep o) b).dates = b.dates ++ days ∧
        (days.foldl (calcStep o) b).totalDays = b.totalDays + days.length ∧
        (days.foldl (calcStep o) b).vacationDaysUsed
          = b.vacationDaysUsed + days.countP (consumesDay o) ∧
        (days.foldl (calcStep o) b).startDate = b.startDate ∧
        (days.foldl (calcStep o) b).endDate = b.endDate
  | [], b => by simp
  | d :: days, b => by
    obtain ⟨h1, h2, h3, h4, h5⟩ := calcStep_fields o b d
    obtain ⟨g1, g2, g3, g4, g5⟩ := calcFold o days (calcStep o b d)
    refine ⟨?_, ?_, ?_, ?_, ?_⟩
    · simp [g1, h1]
    · simp [g2, h2]; omega
    · simp only [List.foldl_cons, g3, h3, List.countP_cons]
      by_cases hc : consumesDay o d <;> simp [hc] <;> omega
    · simp [g4, h4]
    · simp [g5, h5]

theorem calculateBlock_dates (o : Optimizer) (s e : Int) :
    (o.calculateBlock s e).dates = rangeList s e := by
  simp only [Optimizer.calculateBlock]
  rw [(calcFold o (rangeList s e) _).1]
  simp

theorem calculateBlock_start (o : Optimizer) (s e : Int) :
    (o.calculateBlock s e).startDate = s := by
  simp only [Optimizer.calculateBlock]
  rw [(calcFold o (rangeList s e) _).2.2.2.1]

theorem calculateBlock_end (o : Optimizer) (s e : Int) :
    (o.calculateBlock s e).endDate = e := by
  simp only [Optimizer.calculateBlock]
  rw [(calcFold o (rangeList s e) _).2.2.2.2]

theorem calculateBlock_totalDays (o : Optimizer) (s e : Int) :
    (o.calculateBlock s e).totalDays = (o.calculateBlock s e).dates.length := by
  have h := calcFold o (rangeList s e)
    { startDate := s
      endDate := e
      totalDays := 0
      vacationDaysUsed := 0
      dates := []
      holidays := []
      weekends := [] }
  simp only [Optimizer.calculateBlock]
  rw [h.2.1, h.1]
  simp

theorem calculateBlock_vdu (o : Optimizer) (s e : Int) :
    (o.calculateBlock s e).vacationDaysUsed
      = (o.calculateBlock s e).dates.countP (consumesDay o) := by
  have h := calcFold o (rangeList s e)
    { startDate := s
      endDate := e
      totalDays := 0
      vacationDaysUsed := 0
      dates := []
      holidays := []
      weekends := [] }
  simp only [Optimizer.calculateBlock]
  rw [h.2.2.1, h.1]
  simp

/-! ## Claim C4: bridge opportunities -/

theorem bridgeFor_eq_bridgeSpec (o : Optimizer) (h : Int) :
    bridgeFor o h = bridgeSpec o h := by
  unfold bridgeFor bridgeSpec bridgeIntervals
  cases weekdayOf h <;>
    simp only [List.map_cons, List.map_nil, List.filter_cons, List.filter_nil,
      decide_eq_true_eq] <;>
    split_ifs <;> simp_all

theorem findBridge_eq_flatMap (o : Optimizer) :
    o.findBridgeOpportunities = o.holidays.flatMap (bridgeFor o) := by
  unfold Optimizer.findBridgeOpportunities
  rw [foldl_append_flatMap]
  simp

/-- C4: for every holiday in the list, `findBridgeOpportunities` generates
candidate blocks exactly by the weekday of the holiday date — Monday:
`[h-3, h]`; Tuesday: `[h-1, h]`; Thursday: `[h, h+1]`; Friday: `[h, h+3]`;
Wednesday: `[h-2, h]` and `[h, h+2]`; Saturday/Sunday: none — keeping each
candidate only if its computed `vacation_days_used` is greater than 0. -/
theorem claim_C4 (o : Optimizer) :
    o.findBridgeOpportunities = o.holidays.flatMap (bridgeSpec o) := by
  rw [findBridge_eq_flatMap]
  congr 1
  exact funext (bridgeFor_eq_bridgeSpec o)

/-! ## Claim C5: the candidate pool of `longest_blocks` and `balanced` -/

theorem weekdayOf_eq_monday (d : Int) : (weekdayOf d = .monday) ↔ d % 7 = 1 := by
  have h0 : 0 ≤ d % 7 := Int.emod_nonneg d (by norm_num)
  have h7 : d % 7 < 7 := Int.emod_lt_of_pos d (by norm_num)
  unfold weekdayOf
  generalize hk : (d % 7).toNat = k
  have hk7 : k < 7 := by omega
  interval_cases k <;> simp <;> omega

theorem findWeekStartGo_spec :
    ∀ (k : Nat) (d : Int), (d % 7 + 6) % 7 < (k : Int) →
      findWeekStartGo k d = d - (d % 7 + 6) % 7
  | 0, d => by
    intro h
    have h0 : 0 ≤ (d % 7 + 6) % 7 := Int.emod_nonneg _ (by norm_num)
    omega
  | k + 1, d => by
    intro h
    rw [findWeekStartGo]
    by_cases hm : weekdayOf d = .monday
    · rw [if_pos hm]
      rw [weekdayOf_eq_monday] at hm
      omega
    · rw [weekdayOf_eq_monday] at hm
      rw [if_neg (by rw [weekdayOf_eq_monday]; exact hm)]
      rw [findWeekStartGo_spec k (d - 1) (by omega)]
      omega

theorem findWeekStart_eq_mondayOf (d : Int) : findWeekStart d = mondayOf d := by
  have h0 : 0 ≤ (d % 7 + 6) % 7 := Int.emod_nonneg _ (by norm_num)
  have h7 : (d % 7 + 6) % 7 < 7 := Int.emod_lt_of_pos _ (by norm_num)
  rw [findWeekStart, findWeekStartGo_spec 7 d (by omega), mondayOf]

theorem mondayOf_spec (d : Int) :
    weekdayOf (mondayOf d) = .monday ∧ mondayOf d ≤ d ∧ d ≤ mondayOf d + 6 := by
  have h0 : 0 ≤ (d % 7 + 6) % 7 := Int.emod_nonneg _ (by norm_num)
  have h7 : (d % 7 + 6) % 7 < 7 := Int.emod_lt_of_pos _ (by norm_num)
  refine ⟨?_, by rw [mondayOf]; omega, by rw [mondayOf]; omega⟩
  rw [weekdayOf_eq_monday, mondayOf]
  omega

theorem weekBlocksFor_eq_spec (o : Optimizer) (h : Int) :
    weekBlocksFor o h = weekBlocksSpec o h := by
  unfold weekBlocksFor weekBlocksSpec
  rw [findWeekStart_eq_mondayOf]
  simp [Bool.and_eq_true, decide_eq_true_eq, and_comm]

/-- C5: for the `longest_blocks` and `balanced` strategies the candidate pool
consists of all bridge opportunities plus, for every holiday, the
Monday-to-Sunday calendar week containing it (kept only with at least 7 total
days and at least 1 vacation day used) and the two-week window ending with
that week (kept only with at least 14 total days and at least 1 vacation day
used), with duplicate (same start and end) candidates removed; both
strategies sort exactly this pool and feed it to the selector. -/
theorem claim_C5 (o : Optimizer) :
    o.findAllOpportunities = allOpportunitiesSpec o ∧
      o.longestBlocks = o.selectBlocks (sortBy leTotal (allOpportunitiesSpec o)) ∧
      o.balanced = o.selectBlocks (sortBy leBalanced (allOpportunitiesSpec o)) := by
  have hall : o.findAllOpportunities = allOpportunitiesSpec o := by
    unfold Optimizer.findAllOpportunities allOpportunitiesSpec
    rw [foldl_append_flatMap, findBridge_eq_flatMap]
    rw [show weekBlocksFor o = weekBlocksSpec o from funext (weekBlocksFor_eq_spec o)]
    rw [show bridgeFor o = bridgeSpec o from funext (bridgeFor_eq_bridgeSpec o)]
  exact ⟨hall, by rw [Optimizer.longestBlocks, hall], by rw [Optimizer.balanced, hall]⟩

/-! ## Claim C9: strategy fallback -/

theorem selectGo_strategy (o : Optimizer) (s : String) :
    ∀ (l : List VacationBlock) (u : Int) (used : List Int),
      selectGo { o with strategy := s } l u used = selectGo o l u used
  | [], _, _ => rfl
  | b :: rest, u, used => by
    simp only [selectGo]
    split_ifs <;>
      simp only [selectGo_strategy o s rest]

/-- C9: `Optimize` with a strategy string that is none of `bridge_holidays`,
`longest_blocks`, `balanced` returns exactly the same result as `Optimize`
with strategy `balanced` on the same input. -/
theorem claim_C9 (o : Optimizer) (h1 : o.strategy ≠ "bridge_holidays")
    (h2 : o.strategy ≠ "longest_blocks") (h3 : o.strategy ≠ "balanced") :
    o.Optimize = ({ o with strategy := "balanced" } : Optimizer).Optimize := by
  have hb : ({ o with strategy := "balanced" } : Optimizer).balanced = o.balanced := by
    unfold Optimizer.balanced Optimizer.selectBlocks
    exact selectGo_strategy o "balanced" _ 0 _
  unfold Optimizer.Optimize
  simp only [h1, h2, h3, if_false, if_true]
  exact hb.symm

/-- Concrete instance used by the C9 witness. -/
def oW9 : Optimizer :=
  { year := 2024
    vacationDays := 3
    workWeek := ["monday", "tuesday", "wednesday", "thursday", "friday"]
    strategy := "unknown_value"
    holidays := [11, 19]
    manualVacations := [4] }

/-- Witness for C9 at a concrete input. -/
theorem claim_C9_witness :
    oW9.Optimize = ({ oW9 with strategy := "balanced" } : Optimizer).Optimize :=
  claim_C9 oW9 (by decide) (by decide) (by decide)

/-! ## Claim C10: empty work week -/

theorem consumesDay_false_of_empty (o : Optimizer) (hw : o.workWeek = [])
    (d : Int) : consumesDay o d = false := by
  simp [consumesDay, Optimizer.isWorkDay, Optimizer.isWeekend, hw]

theorem calculateBlock_vdu_zero_of_empty (o : Optimizer) (hw : o.workWeek = [])
    (s e : Int) : (o.calculateBlock s e).vacationDaysUsed = 0 := by
  rw [calculateBlock_vdu]
  rw [List.countP_eq_zero]
  intro d _
  simp [consumesDay_false_of_empty o hw]

theorem bridgeFor_nil_of_empty (o : Optimizer) (hw : o.workWeek = []) (h : Int) :
    bridgeFor o h = [] := by
  unfold bridgeFor
  cases weekdayOf h <;>
    simp [calculateBlock_vdu_zero_of_empty o hw]

theorem weekBlocksFor_nil_of_empty (o : Optimizer) (hw : o.workWeek = []) (h : Int) :
    weekBlocksFor o h = [] := by
  unfold weekBlocksFor
  simp [calculateBlock_vdu_zero_of_empty o hw]

theorem findAll_eq_flatMap (o : Optimizer) :
    o.findAllOpportunities
      = deduplicateBlocks
          (o.holidays.flatMap (bridgeFor o) ++ o.holidays.flatMap (weekBlocksFor o)) := by
  unfold Optimizer.findAllOpportunities
  rw [foldl_append_flatMap, findBridge_eq_flatMap]

/-- C10: with an empty work-week set every day is classified as weekend,
`calculateBlock` never counts a vacation day, every candidate is discarded by
the `vacation_days_used > 0` filters, and `Optimize` returns the empty list
for every strategy, budget, holiday list and manual-vacation set. -/
theorem claim_C10 (o : Optimizer) (hw : o.workWeek = []) :
    (∀ d, o.isWeekend d = true) ∧
      (∀ s e, (o.calculateBlock s e).vacationDaysUsed = 0) ∧
      o.findBridgeOpportunities = [] ∧
      o.findAllOpportunities = [] ∧
      o.Optimize = [] := by
  have hb1 : o.holidays.flatMap (bridgeFor o) = [] := by
    rw [List.flatMap_eq_nil_iff]
    intro h _
    exact bridgeFor_nil_of_empty o hw h
  have hb2 : o.holidays.flatMap (weekBlocksFor o) = [] := by
    rw [List.flatMap_eq_nil_iff]
    intro h _
    exact weekBlocksFor_nil_of_empty o hw h
  have hbr : o.findBridgeOpportunities = [] := by
    rw [findBridge_eq_flatMap, hb1]
  have hall : o.findAllOpportunities = [] := by
    rw [findAll_eq_flatMap, hb1, hb2]
    rfl
  refine ⟨?_, calculateBlock_vdu_zero_of_empty o hw, hbr, hall, ?_⟩
  · intro d
    simp [Optimizer.isWeekend, hw]
  · unfold Optimizer.Optimize Optimizer.bridgeHolidays Optimizer.longestBlocks
      Optimizer.balanced Optimizer.selectBlocks
    rw [hbr, hall]
    split_ifs <;> rfl

/-- Concrete instance used by the C10 witness. -/
def oW10 : Optimizer :=
  { year := 2024
    vacationDays := 5
    workWeek := []
    strategy := "longest_blocks"
    holidays := [11, 19]
    manualVacations := [3] }

/-- Witness for C10 at a concrete input. -/
theorem claim_C10_witness :
    (∀ d, oW10.isWeekend d = true) ∧
      (∀ s e, (oW10.calculateBlock s e).vacationDaysUsed = 0) ∧
      oW10.findBridgeOpportunities = [] ∧
      oW10.findAllOpportunities = [] ∧
      oW10.Optimize = [] :=
  claim_C10 oW10 rfl

/-! ## Sorting lemmas -/

theorem perm_insertLe {α : Type} (le : α → α → Bool) (x : α) :
    ∀ (l : List α), List.Perm (insertLe le x l) (x :: l)
  | [] => List.Perm.refl _
  | y :: ys => by
    rw [insertLe]
    split_ifs
    · exact List.Perm.refl _
    · exact ((perm_insertLe le x ys).cons y).trans (List.Perm.swap x y ys)

theorem perm_sortBy {α : Type} (le : α → α → Bool) :
    ∀ (l : List α), List.Perm (sortBy le l) l
  | [] => List.Perm.refl _
  | x :: xs =>
    (perm_insertLe le x (sortBy le xs)).trans ((perm_sortBy le xs).cons x)

theorem mem_sortBy {α : Type} {le : α → α → Bool} {x : α} {l : List α} :
    x ∈ sortBy le l ↔ x ∈ l :=
  (perm_sortBy le l).mem_iff

theorem pairwise_insertLe {α : Type} {le : α → α → Bool} {x : α}
    (htot : ∀ a b, le a b = true ∨ le b a = true)
    (htrans : ∀ a b c, le a b = true → le b c = true → le a c = true) :
    ∀ {l : List α}, List.Pairwise (fun a b => le a b = true) l →
      List.Pairwise (fun a b => le a b = true) (insertLe le x l)
  | [], _ => List.pairwise_singleton _ x
  | y :: ys, h => by
    rw [insertLe]
    rcases List.pairwise_cons.1 h with ⟨hy, hys⟩
    split_ifs with hxy
    · rw [List.pairwise_cons]
      refine ⟨?_, h⟩
      intro b hb
      rcases List.mem_cons.1 hb with rfl | hb
      · exact hxy
      · exact htrans x y b hxy (hy b hb)
    · rw [List.pairwise_cons]
      have hyx : le y x = true := (htot x y).resolve_left (by simp [hxy])
      refine ⟨?_, pairwise_insertLe htot htrans hys⟩
      intro b hb
      rcases List.mem_cons.1 ((perm_insertLe le x ys).mem_iff.1 hb) with rfl | hb
      · exact hyx
      · exact hy b hb

theorem pairwise_sortBy {α : Type} {le : α → α → Bool}
    (htot : ∀ a b, le a b = true ∨ le b a = true)
    (htrans : ∀ a b c, le a b = true → le b c = true → le a c = true) :
    ∀ (l : List α), List.Pairwise (fun a b => le a b = true) (sortBy le l)
  | [] => List.Pairwise.nil
  | x :: xs => pairwise_insertLe htot htrans (pairwise_sortBy htot htrans xs)

/-! ## `selectBlocks` invariants -/

theorem selectGo_subset (o : Optimizer) :
    ∀ (l : List VacationBlock) (u : Int) (used : List Int),
      ∀ b ∈ selectGo o l u used, b ∈ l
  | [], _, _ => by simp [selectGo]
  | c :: rest, u, used => by
    intro b hb
    rw [selectGo] at hb
    split_ifs at hb with h1 h2 h3
    · exact List.mem_cons_of_mem c (selectGo_subset o rest u used b hb)
    · exact List.mem_cons_of_mem c (selectGo_subset o rest u used b hb)
    · rw [List.mem_singleton] at hb
      exact hb ▸ List.mem_cons_self c rest
    · rcases List.mem_cons.1 hb with h | h
      · exact h ▸ List.mem_cons_self c rest
      · exact List.mem_cons_of_mem c (selectGo_subset o rest _ _ b h)

theorem selectGo_budget (o : Optimizer) :
    ∀ (l : List VacationBlock) (u : Int) (used : List Int),
      ((selectGo o l u used).map (fun b => (b.vacationDaysUsed : Int))).sum
        ≤ max (o.vacationDays - u) 0
  | [], _, _ => by simp [selectGo]
  | c :: rest, u, used => by
    rw [selectGo]
    split_ifs with h1 h2 h3
    · exact selectGo_budget o rest u used
    · exact selectGo_budget o rest u used
    · simp only [List.map_cons, List.map_nil, List.sum_cons, List.sum_nil]
      omega
    · simp only [List.map_cons, List.sum_cons]
      have ih := selectGo_budget o rest (u + (c.vacationDaysUsed : Int)) (used ++ c.dates)
      omega

theorem selectGo_disjoint (o : Optimizer) :
    ∀ (l : List VacationBlock) (u : Int) (used : List Int),
      List.Pairwise (fun a b => ∀ d ∈ a.dates, d ∉ b.dates) (selectGo o l u used) ∧
        ∀ b ∈ selectGo o l u used, ∀ d ∈ b.dates, d ∉ used
  | [], _, _ => by simp [selectGo]
  | c :: rest, u, used => by
    rw [selectGo]
    split_ifs with h1 h2 h3
    · exact selectGo_disjoint o rest u used
    · exact selectGo_disjoint o rest u used
    · have hc : ∀ d ∈ c.dates, d ∉ used := by
        intro d hd hmem
        apply h2
        rw [List.any_eq_true]
        exact ⟨d, hd, List.elem_iff.2 hmem⟩
      refine ⟨List.pairwise_singleton _ _, ?_⟩
      intro b hb
      rw [List.mem_singleton] at hb
      exact hb ▸ hc
    · have hc : ∀ d ∈ c.dates, d ∉ used := by
        intro d hd hmem
        apply h2
        rw [List.any_eq_true]
        exact ⟨d, hd, List.elem_iff.2 hmem⟩
      have ih := selectGo_disjoint o rest (u + (c.vacationDaysUsed : Int)) (used ++ c.dates)
      constructor
      · rw [List.pairwise_cons]
        refine ⟨?_, ih.1⟩
        intro b hb d hd
        intro hmem
        exact ih.2 b hb d hmem (List.mem_append_right used hd)
      · intro b hb d hd
        rcases List.mem_cons.1 hb with h | h
        · exact hc d (h ▸ hd)
        · intro hmem
          exact ih.2 b h d hd (List.mem_append_left _ hmem)

/-- Over every strategy branch, `Optimize` is `selectGo` on some sorted pool
with `usedDays = 0` and `usedDates` seeded with the manual vacations. -/
theorem Optimize_eq_selectGo (o : Optimizer) :
    ∃ pool, o.Optimize = selectGo o pool 0 o.manualVacations ∧
      ∀ b ∈ pool, b ∈ o.findBridgeOpportunities ∨ b ∈ o.findAllOpportunities := by
  unfold Optimizer.Optimize Optimizer.bridgeHolidays Optimizer.longestBlocks
    Optimizer.balanced Optimizer.selectBlocks
  split_ifs
  · exact ⟨_, rfl, fun b hb => Or.inl (mem_sortBy.1 hb)⟩
  · exact ⟨_, rfl, fun b hb => Or.inr (mem_sortBy.1 hb)⟩
  · exact ⟨_, rfl, fun b hb => Or.inr (mem_sortBy.1 hb)⟩
  · exact ⟨_, rfl, fun b hb => Or.inr (mem_sortBy.1 hb)⟩

/-! ## Claim C2: no-overlap invariant -/

/-- C2: any two distinct blocks returned by `Optimize` have disjoint date
sets, and every returned block's date set is disjoint from the
manual-vacation set. -/
theorem claim_C2 (o : Optimizer) :
    List.Pairwise (fun a b => ∀ d ∈ a.dates, d ∉ b.dates) o.Optimize ∧
      ∀ b ∈ o.Optimize, ∀ d ∈ b.dates, d ∉ o.manualVacations := by
  obtain ⟨pool, hpool, -⟩ := Optimize_eq_selectGo o
  rw [hpool]
  exact selectGo_disjoint o pool 0 o.manualVacations

/-- Concrete instance used by the C2 witness. -/
def oW2 : Optimizer :=
  { year := 2024
    vacationDays := 4
    workWeek := ["monday", "tuesday", "wednesday", "thursday", "friday"]
    strategy := "balanced"
    holidays := [11, 18, 19]
    manualVacations := [2] }

/-- Witness for C2 at a concrete input. -/
theorem claim_C2_witness :
    List.Pairwise (fun a b => ∀ d ∈ a.dates, d ∉ b.dates) oW2.Optimize ∧
      ∀ b ∈ oW2.Optimize, ∀ d ∈ b.dates, d ∉ oW2.manualVacations :=
  claim_C2 oW2

/-! ## Claim C1: budget invariant -/

/-- Concrete instance exhibiting the failure of the unamended C1: with a
negative budget the optimizer selects nothing, and the sum 0 exceeds the
budget. -/
def oC1 : Optimizer :=
  { year := 2024
    vacationDays := -1
    workWeek := []
    strategy := "balanced"
    holidays := []
    manualVacations := [] }

/-- Counterexample to C1 as stated: for the optimization request `oC1`
(budget −1) the sum of `vacation_days_used` over the blocks returned by
`Optimize` is 0, which is not at most the budget. -/
theorem claim_C1_counterexample :
    ¬ ((oC1.Optimize.map (fun b => (b.vacationDaysUsed : Int))).sum
        ≤ oC1.vacationDays) := by
  decide

/-- C1 (amended): for every optimization request whose budget is
non-negative, the sum of `vacation_days_used` over all blocks returned by
`Optimize` is at most the budget. -/
theorem claim_C1_amended (o : Optimizer) (h : 0 ≤ o.vacationDays) :
    (o.Optimize.map (fun b => (b.vacationDaysUsed : Int))).sum
      ≤ o.vacationDays := by
  obtain ⟨pool, hpool, -⟩ := Optimize_eq_selectGo o
  rw [hpool]
  have := selectGo_budget o pool 0 o.manualVacations
  omega

/-- Concrete instance used by the C1 witness. -/
def oW1 : Optimizer :=
  { year := 2024
    vacationDays := 1
    workWeek := ["monday", "tuesday", "wednesday", "thursday", "friday"]
    strategy := "bridge_holidays"
    holidays := [11]
    manualVacations := [] }

/-- Witness for the amended C1 at a concrete input. -/
theorem claim_C1_witness :
    0 ≤ oW1.vacationDays ∧
      (oW1.Optimize.map (fun b => (b.vacationDaysUsed : Int))).sum
        ≤ oW1.vacationDays :=
  ⟨by decide, claim_C1_amended oW1 (by decide)⟩

/-! ## Claim C6: zero and negative budgets -/

theorem bridgeFor_vdu_pos (o : Optimizer) (h : Int) :
    ∀ b ∈ bridgeFor o h, 0 < b.vacationDaysUsed := by
  intro b hb
  rw [bridgeFor_eq_bridgeSpec] at hb
  unfold bridgeSpec at hb
  rw [List.mem_filter] at hb
  simpa using hb.2

theorem weekBlocksFor_vdu_pos (o : Optimizer) (h : Int) :
    ∀ b ∈ weekBlocksFor o h, 0 < b.vacationDaysUsed := by
  intro b hb
  rw [weekBlocksFor_eq_spec] at hb
  unfold weekBlocksSpec at hb
  simp only [List.mem_append] at hb
  rcases hb with hb | hb <;> split_ifs at hb with hc <;>
    first
      | exact absurd hb (List.not_mem_nil b)
      | (rw [List.mem_singleton] at hb; exact hb ▸ hc.1)

theorem dedupGo_subset :
    ∀ (seen : List (Int × Int)) (l : List VacationBlock),
      ∀ b ∈ dedupGo seen l, b ∈ l
  | _, [] => by simp [dedupGo]
  | seen, c :: rest => by
    intro b hb
    rw [dedupGo] at hb
    split_ifs at hb
    · exact List.mem_cons_of_mem c (dedupGo_subset _ rest b hb)
    · rcases List.mem_cons.1 hb with h | h
      · exact h ▸ List.mem_cons_self c rest
      · exact List.mem_cons_of_mem c (dedupGo_subset _ rest b h)

theorem findBridge_vdu_pos (o : Optimizer) :
    ∀ b ∈ o.findBridgeOpportunities, 0 < b.vacationDaysUsed := by
  intro b hb
  rw [findBridge_eq_flatMap, List.mem_flatMap] at hb
  obtain ⟨h, -, hb⟩ := hb
  exact bridgeFor_vdu_pos o h b hb

theorem findAll_vdu_pos (o : Optimizer) :
    ∀ b ∈ o.findAllOpportunities, 0 < b.vacationDaysUsed := by
  intro b hb
  rw [findAll_eq_flatMap] at hb
  have := dedupGo_subset [] _ b hb
  rw [List.mem_append] at this
  rcases this with h | h <;> rw [List.mem_flatMap] at h <;> obtain ⟨x, -, hx⟩ := h
  · exact bridgeFor_vdu_pos o x b hx
  · exact weekBlocksFor_vdu_pos o x b hx

theorem selectGo_nil_of_nonpos (o : Optimizer) (hv : o.vacationDays ≤ 0) :
    ∀ (l : List VacationBlock) (used : List Int),
      (∀ b ∈ l, 0 < b.vacationDaysUsed) → selectGo o l 0 used = []
  | [], _, _ => rfl
  | c :: rest, used, hpos => by
    rw [selectGo]
    rw [if_pos (by have := hpos c (List.mem_cons_self c rest); omega)]
    exact selectGo_nil_of_nonpos o hv rest used
      (fun b hb => hpos b (List.mem_cons_of_mem c hb))

theorem Optimize_nil_of_nonpos (o : Optimizer) (hv : o.vacationDays ≤ 0) :
    o.Optimize = [] := by
  obtain ⟨pool, hpool, hmem⟩ := Optimize_eq_selectGo o
  rw [hpool]
  apply selectGo_nil_of_nonpos o hv
  intro b hb
  rcases hmem b hb with h | h
  · exact findBridge_vdu_pos o b h
  · exact findAll_vdu_pos o b h

/-- C6: with budget 0, `Optimize` returns the empty list for every strategy
and holiday list, and a negative budget is treated exactly like budget 0
(the optimizer selects nothing in either case). -/
theorem claim_C6 (o : Optimizer) :
    (o.vacationDays = 0 → o.Optimize = []) ∧
      (o.vacationDays < 0 →
        o.Optimize = ({ o with vacationDays := 0 } : Optimizer).Optimize ∧
          o.Optimize = []) := by
  constructor
  · intro h
    exact Optimize_nil_of_nonpos o (by omega)
  · intro h
    have h1 : o.Optimize = [] := Optimize_nil_of_nonpos o (by omega)
    have h2 : ({ o with vacationDays := 0 } : Optimizer).Optimize = [] :=
      Optimize_nil_of_nonpos _ (by simp)
    exact ⟨h1.trans h2.symm, h1⟩

/-- Concrete instances used by the C6 witness. -/
def oW6a : Optimizer :=
  { year := 2024
    vacationDays := 0
    workWeek := ["monday", "tuesday", "wednesday", "thursday", "friday"]
    strategy := "longest_blocks"
    holidays := [11, 19]
    manualVacations := [] }

/-- Concrete instances used by the C6 witness. -/
def oW6b : Optimizer :=
  { oW6a with vacationDays := -2, strategy := "bridge_holidays" }

/-- Witness for C6 at concrete inputs. -/
theorem claim_C6_witness :
    oW6a.Optimize = [] ∧
      (oW6b.Optimize = ({ oW6b with vacationDays := 0 } : Optimizer).Optimize ∧
        oW6b.Optimize = []) :=
  ⟨(claim_C6 oW6a).1 rfl, (claim_C6 oW6b).2 (by decide)⟩

/-! ## Claim C3: block integrity -/

/-- Per-block integrity for `datesToBlocks` blocks: `totalDays` counts the
dates, and `vacationDaysUsed` counts the dates that are work days and not
holidays (`datesToBlocks` has no manual-vacation set). -/
def dtbIntegrity (hol : List Int) (ww : List String) (b : VacationBlock) : Prop :=
  b.totalDays = b.dates.length ∧
    b.vacationDaysUsed = b.dates.countP (fun d => !(dtbFree hol ww d))

theorem dtbScan_integrity (hol : List Int) (ww : List String) (v : Int)
    (hv : dtbFree hol ww v = false) :
    ∀ (fuel : Nat) (b : VacationBlock), dtbIntegrity hol ww b →
      dtbIntegrity hol ww (dtbScan hol ww v fuel b).1
  | 0, _, hb => hb
  | fuel + 1, b, hb => by
    rw [dtbScan]
    split_ifs with h1 h2 h3
    · refine ⟨?_, ?_⟩ <;>
        simp [hb.1, hb.2, List.countP_append, List.countP_cons, hv]
    · refine dtbScan_integrity hol ww v hv fuel _ ⟨?_, ?_⟩ <;>
        simp [hb.1, hb.2, List.countP_append, List.countP_cons, dtbFree, h2]
    · refine dtbScan_integrity hol ww v hv fuel _ ⟨?_, ?_⟩ <;>
        simp [hb.1, hb.2, List.countP_append, List.countP_cons, dtbFree,
          List.elem_iff.1 h3]
    · exact hb

theorem dtbTry_integrity (hol : List Int) (ww : List String) (v : Int)
    (hv : dtbFree hol ww v = false) :
    ∀ (blocks : List VacationBlock), (∀ b ∈ blocks, dtbIntegrity hol ww b) →
      ∀ b ∈ (dtbTry hol ww v blocks).1, dtbIntegrity hol ww b
  | [], _ => by simp [dtbTry]
  | c :: rest, hall => by
    intro b hb
    rw [dtbTry] at hb
    split_ifs at hb <;> rcases List.mem_cons.1 hb with rfl | hb
    · exact dtbScan_integrity hol ww v hv _ c (hall c (List.mem_cons_self c rest))
    · exact hall b (List.mem_cons_of_mem c hb)
    · exact dtbScan_integrity hol ww v hv _ c (hall c (List.mem_cons_self c rest))
    · exact dtbTry_integrity hol ww v hv rest
        (fun b hb => hall b (List.mem_cons_of_mem c hb)) b hb

theorem dtbBackGo_free (hol : List Int) (ww : List String) :
    ∀ (fuel : Nat) (v : Int), ∀ d ∈ (dtbBackGo hol ww fuel v).2.1,
      dtbFree hol ww d = true
  | 0, _ => by simp [dtbBackGo]
  | fuel + 1, v => by
    intro d hd
    rw [dtbBackGo] at hd
    split_ifs at hd with h1 h2
    · rcases List.mem_append.1 hd with hd | hd
      · exact dtbBackGo_free hol ww fuel (v - 1) d hd
      · rw [List.mem_singleton] at hd
        simp [hd, dtbFree, h1]
    · rcases List.mem_append.1 hd with hd | hd
      · exact dtbBackGo_free hol ww fuel (v - 1) d hd
      · rw [List.mem_singleton] at hd
        simp [hd, dtbFree, List.elem_iff.1 h2]
    · exact absurd hd (List.not_mem_nil d)

theorem dtbNewBlock_integrity (hol : List Int) (ww : List String) (v : Int)
    (hv : dtbFree hol ww v = false) :
    dtbIntegrity hol ww (dtbNewBlock hol ww v) := by
  unfold dtbNewBlock dtbIntegrity
  refine ⟨by simp, ?_⟩
  rw [List.countP_append]
  rw [List.countP_eq_zero.2 (fun d hd => by
    simp [dtbBackGo_free hol ww (dtbFuel hol) v d hd])]
  simp [hv]

theorem dtbStep_integrity (hol : List Int) (ww : List String) (v : Int)
    (hv : dtbFree hol ww v = false) (blocks : List VacationBlock)
    (hall : ∀ b ∈ blocks, dtbIntegrity hol ww b) :
    ∀ b ∈ dtbStep hol ww blocks v, dtbIntegrity hol ww b := by
  intro b hb
  rw [dtbStep] at hb
  split_ifs at hb
  · exact dtbTry_integrity hol ww v hv blocks hall b hb
  · rcases List.mem_append.1 hb with hb | hb
    · exact dtbTry_integrity hol ww v hv blocks hall b hb
    · rw [List.mem_singleton] at hb
      exact hb ▸ dtbNewBlock_integrity hol ww v hv

theorem dtbFwd_integrity (hol : List Int) (ww : List String) :
    ∀ (fuel : Nat) (b : VacationBlock), dtbIntegrity hol ww b →
      dtbIntegrity hol ww (dtbFwd hol ww fuel b)
  | 0, _, hb => hb
  | fuel + 1, b, hb => by
    rw [dtbFwd]
    split_ifs with h1 h2
    · refine dtbFwd_integrity hol ww fuel _ ⟨?_, ?_⟩ <;>
        simp [hb.1, hb.2, List.countP_append, List.countP_cons, dtbFree, h1]
    · refine dtbFwd_integrity hol ww fuel _ ⟨?_, ?_⟩ <;>
        simp [hb.1, hb.2, List.countP_append, List.countP_cons, dtbFree,
          List.elem_iff.1 h2]
    · exact hb

theorem dtbFold_integrity (hol : List Int) (ww : List String) :
    ∀ (l : List Int) (blocks : List VacationBlock),
      (∀ v ∈ l, dtbFree hol ww v = false) →
      (∀ b ∈ blocks, dtbIntegrity hol ww b) →
      ∀ b ∈ l.foldl (dtbStep hol ww) blocks, dtbIntegrity hol ww b
  | [], blocks, _, hall => hall
  | v :: l, blocks, hl, hall => by
    rw [List.foldl_cons]
    exact dtbFold_integrity hol ww l _
      (fun x hx => hl x (List.mem_cons_of_mem v hx))
      (dtbStep_integrity hol ww v (hl v (List.mem_cons_self v l)) blocks hall)

/-- The standard Monday–Friday work week, used by several concrete
instances. -/
def wwStd : List String :=
  ["monday", "tuesday", "wednesday", "thursday", "friday"]

/-- Counterexample to C3 as stated: feeding `DatesToBlocks` the single date
6 (a Saturday) with the standard work week and no holidays produces a block
whose `vacation_days_used` is 1 although none of its dates is a work day, so
the claimed equality fails for `DatesToBlocks` blocks. -/
theorem claim_C3_counterexample :
    ¬ (∀ b ∈ datesToBlocks [] wwStd [some 6],
        b.vacationDaysUsed = b.dates.countP (fun d => !(dtbFree [] wwStd d))) := by
  decide

/-- C3 (amended): `total_days = |dates|` and
`vacation_days_used = |{d ∈ dates : work day, not holiday, not manual}|`
hold unconditionally for every block produced by `calculateBlock`; for
`DatesToBlocks` (which has no manual set) they hold provided every parsed
input date is a work day that is not a holiday — the code counts every input
date as a used vacation day even when it is a weekend or holiday day, so the
restriction is necessary. -/
theorem claim_C3_amended :
    (∀ (o : Optimizer) (s e : Int),
        (o.calculateBlock s e).totalDays = (o.calculateBlock s e).dates.length ∧
          (o.calculateBlock s e).vacationDaysUsed
            = (o.calculateBlock s e).dates.countP (consumesDay o)) ∧
      (∀ (hol : List Int) (ww : List String) (raw : List (Option Int)),
        (∀ v ∈ raw.filterMap id, dtbFree hol ww v = false) →
        ∀ b ∈ datesToBlocks hol ww raw,
          b.totalDays = b.dates.length ∧
            b.vacationDaysUsed = b.dates.countP (fun d => !(dtbFree hol ww d))) := by
  constructor
  · intro o s e
    exact ⟨calculateBlock_totalDays o s e, calculateBlock_vdu o s e⟩
  · intro hol ww raw hraw b hb
    rw [datesToBlocks] at hb
    split_ifs at hb
    · exact absurd hb (List.not_mem_nil b)
    · rw [datesToBlocksSorted] at hb
      rcases List.mem_map.1 hb with ⟨c, hc, rfl⟩
      refine dtbFwd_integrity hol ww _ c ?_
      refine dtbFold_integrity hol ww _ [] ?_ (by simp) c hc
      intro v hv
      exact hraw v (mem_sortBy.1 hv)

/-- Concrete instance used by the C3 witness: two valid work-day dates, one
garbage entry, one holiday between them. -/
theorem claim_C3_witness :
    ((oW1.calculateBlock 8 14).totalDays = (oW1.calculateBlock 8 14).dates.length ∧
        (oW1.calculateBlock 8 14).vacationDaysUsed
          = (oW1.calculateBlock 8 14).dates.countP (consumesDay oW1)) ∧
      ((∀ v ∈ ([some 9, none, some 11] : List (Option Int)).filterMap id,
          dtbFree [10] wwStd v = false) ∧
        ∀ b ∈ datesToBlocks [10] wwStd [some 9, none, some 11],
          b.totalDays = b.dates.length ∧
            b.vacationDaysUsed = b.dates.countP (fun d => !(dtbFree [10] wwStd d))) :=
  ⟨claim_C3_amended.1 oW1 8 14,
    by decide, claim_C3_amended.2 [10] wwStd [some 9, none, some 11] (by decide)⟩

/-! ## Structure of `datesToBlocks`

The grouping loop is characterised by an invariant: after processing an
ascending prefix `S` of the (parsed, sorted, duplicate-free) vacation dates,
the accumulated blocks are contiguous date ranges in increasing order,
separated by at least one non-absorbable day, every non-final block already
ends right before such a day, every day inside a block range is a vacation
date or absorbable (weekend/holiday), and each block contains a vacation
date. -/

theorem rangeList_self (s : Int) : rangeList s s = [s] := by
  simp [rangeList, show (s + 1 - s).toNat = 1 by omega, List.range_succ]

theorem rangeList_empty {s e : Int} (h : e < s) : rangeList s e = [] := by
  simp [rangeList, show (e + 1 - s).toNat = 0 by omega]

/-- Well-formedness of one accumulated block with respect to the processed
vacation-date prefix `S`. -/
def BlockWF (hol : List Int) (ww : List String) (S : List Int)
    (b : VacationBlock) : Prop :=
  b.startDate ≤ b.endDate ∧
    b.dates = rangeList b.startDate b.endDate ∧
    dtbFree hol ww (b.startDate - 1) = false ∧
    (∀ d, b.startDate ≤ d → d ≤ b.endDate → d ∈ S ∨ dtbFree hol ww d = true) ∧
    (∃ d ∈ S, b.startDate ≤ d ∧ d ≤ b.endDate)

/-- The chain property of the accumulated block list: every block but the
last ends right before a non-absorbable day, and consecutive blocks are
separated. -/
def DtbChain (hol : List Int) (ww : List String) : List VacationBlock → Prop
  | [] => True
  | [_] => True
  | a :: b :: rest =>
    dtbFree hol ww (a.endDate + 1) = false ∧ a.endDate + 1 < b.startDate ∧
      DtbChain hol ww (b :: rest)

/-- The full invariant of the grouping fold. -/
def DtbState (hol : List Int) (ww : List String) (S : List Int)
    (bs : List VacationBlock) : Prop :=
  (∀ b ∈ bs, BlockWF hol ww S b) ∧
    DtbChain hol ww bs ∧
    (∀ x ∈ S, ∃ b ∈ bs, b.startDate ≤ x ∧ x ≤ b.endDate) ∧
    (bs = [] → S = []) ∧
    (∀ blast, bs.getLast? = some blast →
      blast.endDate ∈ S ∧ ∀ x ∈ S, x ≤ blast.endDate)

theorem dtbScan_closed (hol : List Int) (ww : List String) (v : Int)
    (fuel : Nat) (b : VacationBlock)
    (h1 : dtbFree hol ww (b.endDate + 1) = false) (h2 : b.endDate + 1 ≠ v) :
    dtbScan hol ww v fuel b = (b, false) := by
  cases fuel with
  | zero => rfl
  | succ fuel =>
    rw [dtbScan]
    rw [if_neg h2]
    rw [dtbFree, Bool.or_eq_false_iff] at h1
    rw [if_neg (by simp [h1.1]), if_neg (by rw [h1.2]; simp)]

theorem dtbScan_extends (hol : List Int) (ww : List String) (v : Int) :
    ∀ (fuel : Nat) (b : VacationBlock), b.endDate < v →
      fuel = (v - b.endDate).toNat →
      (∀ x, b.endDate < x → x < v → dtbFree hol ww x = true) →
      ∃ b', dtbScan hol ww v fuel b = (b', true) ∧
        b'.startDate = b.startDate ∧ b'.endDate = v ∧
        b'.dates = b.dates ++ rangeList (b.endDate + 1) v
  | 0, b, hlt, hfuel, _ => by omega
  | fuel + 1, b, hlt, hfuel, hfree => by
    rw [dtbScan]
    by_cases hv : b.endDate + 1 = v
    · rw [if_pos hv]
      exact ⟨_, rfl, rfl, by simp [hv], by rw [hv, rangeList_self]⟩
    · rw [if_neg hv]
      have hday : dtbFree hol ww (b.endDate + 1) = true :=
        hfree (b.endDate + 1) (by omega) (by omega)
      rw [dtbFree, Bool.or_eq_true] at hday
      have hrec : ∀ (b₁ : VacationBlock), b₁.endDate = b.endDate + 1 →
          b₁.dates = b.dates ++ [b.endDate + 1] → b₁.startDate = b.startDate →
          ∃ b', dtbScan hol ww v fuel b₁ = (b', true) ∧
            b'.startDate = b.startDate ∧ b'.endDate = v ∧
            b'.dates = b.dates ++ rangeList (b.endDate + 1) v := by
        intro b₁ he hd hs
        obtain ⟨b', h1, h2, h3, h4⟩ :=
          dtbScan_extends hol ww v fuel b₁ (by omega) (by omega)
            (fun x hx1 hx2 => hfree x (by omega) hx2)
        refine ⟨b', h1, by rw [h2, hs], h3, ?_⟩
        rw [h4, hd, he, List.append_assoc]
        congr 1
        rw [show b.endDate + 1 + 1 = (b.endDate + 1) + 1 by ring]
        rw [← rangeList_self (b.endDate + 1), rangeList_append (by omega) (by omega)]
      by_cases hwk : dtbIsWeekend ww (b.endDate + 1) = true
      · rw [if_pos hwk]
        exact hrec _ rfl rfl rfl
      · rw [if_neg hwk]
        have hcont : hol.contains (b.endDate + 1) = true := by
          rcases hday with h | h
          · exact absurd h hwk
          · exact h
        rw [if_pos hcont]
        exact hrec _ rfl rfl rfl
  termination_by fuel => fuel

theorem dtbScan_absorbs (hol : List Int) (ww : List String) (v : Int) :
    ∀ (fuel : Nat) (b : VacationBlock), b.endDate < v →
      fuel = (v - b.endDate).toNat →
      (∃ x, b.endDate < x ∧ x < v ∧ dtbFree hol ww x = false) →
      ∃ b' g, dtbScan hol ww v fuel b = (b', false) ∧
        b.endDate < g ∧ g < v ∧ dtbFree hol ww g = false ∧
        (∀ y, b.endDate < y → y < g → dtbFree hol ww y = true) ∧
        b'.startDate = b.startDate ∧ b'.endDate = g - 1 ∧
        b'.dates = b.dates ++ rangeList (b.endDate + 1) (g - 1)
  | 0, b, hlt, hfuel, _ => by omega
  | fuel + 1, b, hlt, hfuel, hex => by
    obtain ⟨x, hx1, hx2, hx3⟩ := hex
    rw [dtbScan]
    have hv : b.endDate + 1 ≠ v := by omega
    rw [if_neg hv]
    by_cases hday : dtbFree hol ww (b.endDate + 1) = true
    · rw [dtbFree, Bool.or_eq_true] at hday
      have hrec : ∀ (b₁ : VacationBlock), b₁.endDate = b.endDate + 1 →
          b₁.dates = b.dates ++ [b.endDate + 1] → b₁.startDate = b.startDate →
          ∃ b' g, dtbScan hol ww v fuel b₁ = (b', false) ∧
            b.endDate < g ∧ g < v ∧ dtbFree hol ww g = false ∧
            (∀ y, b.endDate < y → y < g → dtbFree hol ww y = true) ∧
            b'.startDate = b.startDate ∧ b'.endDate = g - 1 ∧
            b'.dates = b.dates ++ rangeList (b.endDate + 1) (g - 1) := by
        intro b₁ he hd hs
        have hxne : x ≠ b.endDate + 1 := by
          intro hcon
          rw [hcon, dtbFree, Bool.or_eq_false_iff] at hx3
          rcases hday with h | h
          · rw [hx3.1] at h
            cases h
          · rw [hx3.2] at h
            cases h
        obtain ⟨b', g, h1, h2, h3, h4, h5, h6, h7, h8⟩ :=
          dtbScan_absorbs hol ww v fuel b₁ (by omega) (by omega)
            ⟨x, by omega, hx2, hx3⟩
        refine ⟨b', g, h1, by omega, h3, h4, ?_, by rw [h6, hs], by omega, ?_⟩
        · intro y hy1 hy2
          by_cases hyb : y = b.endDate + 1
          · rw [hyb, dtbFree]
            rcases hday with h | h
            · rw [h]
              rfl
            · rw [h]
              simp
          · exact h5 y (by omega) hy2
        · rw [h8, hd, he, List.append_assoc]
          congr 1
          have hg2 : b.endDate + 1 ≤ g - 1 := by
            by_contra hcon
            push_neg at hcon
            have hge : g = b.endDate + 1 := by omega
            rw [hge, dtbFree] at h4
            rcases hday with h | h
            · rw [h] at h4
              simp at h4
            · rw [h] at h4
              simp at h4
          rw [show b.endDate + 1 + 1 = (b.endDate + 1) + 1 by ring]
          rw [← rangeList_self (b.endDate + 1), rangeList_append (by omega) (by omega)]
      by_cases hwk : dtbIsWeekend ww (b.endDate + 1) = true
      · rw [if_pos hwk]
        exact hrec _ rfl rfl rfl
      · rw [if_neg hwk]
        have hcont : hol.contains (b.endDate + 1) = true := by
          rcases hday with h | h
          · exact absurd h hwk
          · exact h
        rw [if_pos hcont]
        exact hrec _ rfl rfl rfl
    · have hw : dtbIsWeekend ww (b.endDate + 1) = false := by
        cases hb : dtbIsWeekend ww (b.endDate + 1)
        · rfl
        · exact absurd (by simp [dtbFree, hb]) hday
      have hh : hol.contains (b.endDate + 1) = false := by
        cases hb : hol.contains (b.endDate + 1)
        · rfl
        · exact absurd (by simp [dtbFree, List.elem_iff.1 hb]) hday
      rw [if_neg (by simp [hw]), if_neg (by rw [hh]; simp)]
      refine ⟨b, b.endDate + 1, rfl, by omega, by omega, ?_, ?_, rfl, by omega, ?_⟩
      · rw [dtbFree, hw, hh]
        rfl
      · intro y hy1 hy2
        omega
      · rw [show b.endDate + 1 - 1 = b.endDate by ring, rangeList_empty (by omega)]
        simp
  termination_by fuel => fuel

/-! ## Fuel sufficiency for the expansion loops -/

/-- The work week names at least one real weekday (after the lower-casing
`datesToBlocks` applies); without this the Go expansion loops diverge. -/
def dtbHasWork (ww : List String) : Prop :=
  ∃ w : Weekday, (ww.map asciiLower).contains (asciiLower (goWeekdayName w)) = true

/-- Numbering of weekdays matching `weekdayOf`. -/
def wnum : Weekday → Int
  | .sunday => 0
  | .monday => 1
  | .tuesday => 2
  | .wednesday => 3
  | .thursday => 4
  | .friday => 5
  | .saturday => 6

theorem weekdayOf_eq_iff (d : Int) (w : Weekday) :
    weekdayOf d = w ↔ d % 7 = wnum w := by
  have h0 : 0 ≤ d % 7 := Int.emod_nonneg d (by norm_num)
  have h7 : d % 7 < 7 := Int.emod_lt_of_pos d (by norm_num)
  unfold weekdayOf
  generalize hk : (d % 7).toNat = k
  have hk7 : k < 7 := by omega
  interval_cases k <;> cases w <;> simp [wnum] <;> omega

theorem hasWork_weekend {ww : List String} (hw : dtbHasWork ww) :
    ∃ w : Weekday, ∀ d : Int, weekdayOf d = w → dtbIsWeekend ww d = false := by
  obtain ⟨w, hww⟩ := hw
  refine ⟨w, fun d hd => ?_⟩
  rw [dtbIsWeekend, hd, hww]
  rfl

theorem exists_weekday_below (w : Weekday) (d : Int) :
    ∃ j : Nat, j < 7 ∧ weekdayOf (d - j) = w := by
  have hb : 0 ≤ wnum w ∧ wnum w < 7 := by cases w <;> simp [wnum]
  refine ⟨((d % 7 - wnum w + 7) % 7).toNat, ?_, ?_⟩
  · have h0 : 0 ≤ (d % 7 - wnum w + 7) % 7 := Int.emod_nonneg _ (by norm_num)
    have h7 : (d % 7 - wnum w + 7) % 7 < 7 := Int.emod_lt_of_pos _ (by norm_num)
    omega
  · rw [weekdayOf_eq_iff]
    have h0 : 0 ≤ (d % 7 - wnum w + 7) % 7 := Int.emod_nonneg _ (by norm_num)
    omega

theorem exists_weekday_above (w : Weekday) (d : Int) :
    ∃ j : Nat, j < 7 ∧ weekdayOf (d + j) = w := by
  have hb : 0 ≤ wnum w ∧ wnum w < 7 := by cases w <;> simp [wnum]
  refine ⟨((wnum w - d % 7 + 7) % 7).toNat, ?_, ?_⟩
  · have h0 : 0 ≤ (wnum w - d % 7 + 7) % 7 := Int.emod_nonneg _ (by norm_num)
    have h7 : (wnum w - d % 7 + 7) % 7 < 7 := Int.emod_lt_of_pos _ (by norm_num)
    omega
  · rw [weekdayOf_eq_iff]
    have h0 : 0 ≤ (wnum w - d % 7 + 7) % 7 := Int.emod_nonneg _ (by norm_num)
    omega

theorem weekdayOf_congr {d e : Int} (h : d % 7 = e % 7) :
    weekdayOf d = weekdayOf e := by
  unfold weekdayOf
  rw [h]

theorem exists_gap_below {hol : List Int} {ww : List String}
    (hw : dtbHasWork ww) (d : Int) :
    ∃ k : Nat, k < dtbFuel hol ∧ dtbFree hol ww (d - k) = false := by
  by_contra hcon
  push_neg at hcon
  have hfree : ∀ k : Nat, k < dtbFuel hol → dtbFree hol ww (d - k) = true := by
    intro k hk
    cases hfk : dtbFree hol ww (d - k)
    · exact absurd hfk (hcon k hk)
    · rfl
  obtain ⟨w, hwd⟩ := hasWork_weekend hw
  obtain ⟨j0, hj0, hjw⟩ := exists_weekday_below w d
  set L : List Int :=
    (List.range (hol.length + 1)).map (fun (i : Nat) => d - j0 - 7 * i) with hL
  have hmemhol : ∀ x ∈ L, x ∈ hol := by
    intro x hx
    rw [hL, List.mem_map] at hx
    obtain ⟨i, hi, rfl⟩ := hx
    rw [List.mem_range] at hi
    have hk : (j0 + 7 * i : Nat) < dtbFuel hol := by
      rw [dtbFuel]
      omega
    have hfx := hfree (j0 + 7 * i) hk
    have hwx : weekdayOf (d - j0 - 7 * i) = w := by
      rw [← hjw]
      apply weekdayOf_congr
      omega
    have hweek := hwd _ hwx
    rw [show d - (j0 + 7 * i : Nat) = d - j0 - 7 * i by push_cast; ring] at hfx
    rw [dtbFree, hweek, Bool.false_or] at hfx
    exact List.elem_iff.1 hfx
  have hnd : L.Nodup := by
    rw [hL]
    refine List.Nodup.map ?_ (List.nodup_range _)
    intro a b hab
    simp only at hab
    omega
  have hlen : L.length ≤ hol.length := ((hnd.subperm) hmemhol).length_le
  rw [hL, List.length_map, List.length_range] at hlen
  omega

theorem exists_gap_above {hol : List Int} {ww : List String}
    (hw : dtbHasWork ww) (d : Int) :
    ∃ k : Nat, k < dtbFuel hol ∧ dtbFree hol ww (d + k) = false := by
  by_contra hcon
  push_neg at hcon
  have hfree : ∀ k : Nat, k < dtbFuel hol → dtbFree hol ww (d + k) = true := by
    intro k hk
    cases hfk : dtbFree hol ww (d + k)
    · exact absurd hfk (hcon k hk)
    · rfl
  obtain ⟨w, hwd⟩ := hasWork_weekend hw
  obtain ⟨j0, hj0, hjw⟩ := exists_weekday_above w d
  set L : List Int :=
    (List.range (hol.length + 1)).map (fun (i : Nat) => d + j0 + 7 * i) with hL
  have hmemhol : ∀ x ∈ L, x ∈ hol := by
    intro x hx
    rw [hL, List.mem_map] at hx
    obtain ⟨i, hi, rfl⟩ := hx
    rw [List.mem_range] at hi
    have hk : (j0 + 7 * i : Nat) < dtbFuel hol := by
      rw [dtbFuel]
      omega
    have hfx := hfree (j0 + 7 * i) hk
    have hwx : weekdayOf (d + j0 + 7 * i) = w := by
      rw [← hjw]
      apply weekdayOf_congr
      omega
    have hweek := hwd _ hwx
    rw [show d + (j0 + 7 * i : Nat) = d + j0 + 7 * i by push_cast; ring] at hfx
    rw [dtbFree, hweek, Bool.false_or] at hfx
    exact List.elem_iff.1 hfx
  have hnd : L.Nodup := by
    rw [hL]
    refine List.Nodup.map ?_ (List.nodup_range _)
    intro a b hab
    simp only at hab
    omega
  have hlen : L.length ≤ hol.length := ((hnd.subperm) hmemhol).length_le
  rw [hL, List.length_map, List.length_range] at hlen
  omega

/-! ## Backward and forward expansion specifications -/

theorem dtbBackGo_spec (hol : List Int) (ww : List String) :
    ∀ (fuel : Nat) (v : Int),
      (∃ k : Nat, k < fuel ∧ dtbFree hol ww (v - 1 - k) = false) →
      ∃ s, (dtbBackGo hol ww fuel v).1 = s ∧
        (dtbBackGo hol ww fuel v).2.1 = rangeList s (v - 1) ∧
        s ≤ v ∧ dtbFree hol ww (s - 1) = false ∧
        (∀ x, s ≤ x → x ≤ v - 1 → dtbFree hol ww x = true)
  | 0, v, hex => by
    obtain ⟨k, hk, -⟩ := hex
    omega
  | fuel + 1, v, hex => by
    rw [dtbBackGo]
    by_cases hc : dtbFree hol ww (v - 1) = true
    · have hex' : ∃ k : Nat, k < fuel ∧ dtbFree hol ww (v - 1 - 1 - k) = false := by
        obtain ⟨k, hk, hgap⟩ := hex
        cases k with
        | zero =>
          rw [show v - 1 - (0 : Nat) = v - 1 by push_cast; ring] at hgap
          rw [hgap] at hc
          cases hc
        | succ k =>
          exact ⟨k, by omega, by
            rw [show v - 1 - 1 - (k : Nat) = v - 1 - (Nat.succ k : Nat) by push_cast; ring]
            exact hgap⟩
      obtain ⟨s, h1, h2, h3, h4, h5⟩ := dtbBackGo_spec hol ww fuel (v - 1) hex'
      have hrest : ∀ x, s ≤ x → x ≤ v - 1 → dtbFree hol ww x = true := by
        intro x hx1 hx2
        by_cases hxv : x = v - 1
        · exact hxv ▸ hc
        · exact h5 x hx1 (by omega)
      have hdates : (dtbBackGo hol ww fuel (v - 1)).2.1 ++ [v - 1]
          = rangeList s (v - 1) := by
        rw [h2, show v - 1 = (v - 1 - 1) + 1 by ring]
        rw [show (v - 1 - 1) + 1 - 1 = v - 1 - 1 by ring]
        rw [← rangeList_self ((v - 1 - 1) + 1), rangeList_append (by omega) (by omega)]
      rw [dtbFree, Bool.or_eq_true] at hc
      rcases hc2 : dtbIsWeekend ww (v - 1) with _ | _
      · rw [if_neg (by simp)]
        have hcont : hol.contains (v - 1) = true := by
          rcases hc with h | h
          · rw [h] at hc2
            cases hc2
          · exact h
        rw [if_pos hcont]
        exact ⟨s, h1, by simpa using hdates, by omega, h4, hrest⟩
      · rw [if_pos rfl]
        exact ⟨s, h1, by simpa using hdates, by omega, h4, hrest⟩
    · have hgap : dtbFree hol ww (v - 1) = false := by
        cases hg : dtbFree hol ww (v - 1)
        · rfl
        · exact absurd hg hc
      rw [dtbFree, Bool.or_eq_false_iff] at hgap
      rw [if_neg (by rw [hgap.1]; simp), if_neg (by rw [hgap.2]; simp)]
      refine ⟨v, rfl, by rw [rangeList_empty (by omega)], le_refl v, ?_, ?_⟩
      · rw [dtbFree, hgap.1, hgap.2]
        rfl
      · intro x hx1 hx2
        omega
  termination_by fuel => fuel

theorem dtbFwdPointGo_spec (hol : List Int) (ww : List String) :
    ∀ (fuel : Nat) (d : Int),
      (∃ k : Nat, k < fuel ∧ dtbFree hol ww (d + 1 + k) = false) →
      ∃ e, dtbFwdPointGo hol ww fuel d = e ∧ d ≤ e ∧
        dtbFree hol ww (e + 1) = false ∧
        (∀ x, d < x → x ≤ e → dtbFree hol ww x = true)
  | 0, d, hex => by
    obtain ⟨k, hk, -⟩ := hex
    omega
  | fuel + 1, d, hex => by
    rw [dtbFwdPointGo]
    by_cases hc : dtbFree hol ww (d + 1) = true
    · rw [if_pos hc]
      have hex' : ∃ k : Nat, k < fuel ∧ dtbFree hol ww (d + 1 + 1 + k) = false := by
        obtain ⟨k, hk, hgap⟩ := hex
        cases k with
        | zero =>
          rw [show d + 1 + (0 : Nat) = d + 1 by push_cast; ring] at hgap
          rw [hgap] at hc
          cases hc
        | succ k =>
          exact ⟨k, by omega, by
            rw [show d + 1 + 1 + (k : Nat) = d + 1 + (Nat.succ k : Nat) by push_cast; ring]
            exact hgap⟩
      obtain ⟨e, h1, h2, h3, h4⟩ := dtbFwdPointGo_spec hol ww fuel (d + 1) hex'
      refine ⟨e, h1, by omega, h3, ?_⟩
      intro x hx1 hx2
      by_cases hxd : x = d + 1
      · exact hxd ▸ hc
      · exact h4 x (by omega) hx2
    · rw [if_neg hc]
      have hgap : dtbFree hol ww (d + 1) = false := by
        cases hg : dtbFree hol ww (d + 1)
        · rfl
        · exact absurd hg hc
      exact ⟨d, rfl, le_refl d, hgap, fun x hx1 hx2 => by omega⟩
  termination_by fuel => fuel

theorem dtbFwd_spec (hol : List Int) (ww : List String) :
    ∀ (fuel : Nat) (b : VacationBlock),
      (∃ k : Nat, k < fuel ∧ dtbFree hol ww (b.endDate + 1 + k) = false) →
      ∃ e, (dtbFwd hol ww fuel b).startDate = b.startDate ∧
        (dtbFwd hol ww fuel b).endDate = e ∧
        (dtbFwd hol ww fuel b).dates = b.dates ++ rangeList (b.endDate + 1) e ∧
        b.endDate ≤ e ∧ dtbFree hol ww (e + 1) = false ∧
        (∀ x, b.endDate < x → x ≤ e → dtbFree hol ww x = true)
  | 0, b, hex => by
    obtain ⟨k, hk, -⟩ := hex
    omega
  | fuel + 1, b, hex => by
    rw [dtbFwd]
    by_cases hc : dtbFree hol ww (b.endDate + 1) = true
    · have hex' : ∀ (b₁ : VacationBlock), b₁.endDate = b.endDate + 1 →
          ∃ k : Nat, k < fuel ∧ dtbFree hol ww (b₁.endDate + 1 + k) = false := by
        intro b₁ he
        obtain ⟨k, hk, hgap⟩ := hex
        cases k with
        | zero =>
          rw [show b.endDate + 1 + (0 : Nat) = b.endDate + 1 by push_cast; ring] at hgap
          rw [hgap] at hc
          cases hc
        | succ k =>
          exact ⟨k, by omega, by
            rw [he, show b.endDate + 1 + 1 + (k : Nat)
              = b.endDate + 1 + (Nat.succ k : Nat) by push_cast; ring]
            exact hgap⟩
      have hrec : ∀ (b₁ : VacationBlock), b₁.endDate = b.endDate + 1 →
          b₁.dates = b.dates ++ [b.endDate + 1] → b₁.startDate = b.startDate →
          ∃ e, (dtbFwd hol ww fuel b₁).startDate = b.startDate ∧
            (dtbFwd hol ww fuel b₁).endDate = e ∧
            (dtbFwd hol ww fuel b₁).dates = b.dates ++ rangeList (b.endDate + 1) e ∧
            b.endDate ≤ e ∧ dtbFree hol ww (e + 1) = false ∧
            (∀ x, b.endDate < x → x ≤ e → dtbFree hol ww x = true) := by
        intro b₁ he hd hs
        obtain ⟨e, h1, h2, h3, h4, h5, h6⟩ :=
          dtbFwd_spec hol ww fuel b₁ (hex' b₁ he)
        refine ⟨e, by rw [h1, hs], h2, ?_, by omega, h5, ?_⟩
        · rw [h3, hd, he, List.append_assoc]
          congr 1
          rw [show b.endDate + 1 + 1 = (b.endDate + 1) + 1 by ring]
          rw [← rangeList_self (b.endDate + 1), rangeList_append (by omega) (by omega)]
        · intro x hx1 hx2
          by_cases hxd : x = b.endDate + 1
          · exact hxd ▸ hc
          · exact h6 x (by omega) hx2
      rw [dtbFree, Bool.or_eq_true] at hc
      rcases hc2 : dtbIsWeekend ww (b.endDate + 1) with _ | _
      · rw [if_neg (by simp)]
        have hcont : hol.contains (b.endDate + 1) = true := by
          rcases hc with h | h
          · rw [h] at hc2
            cases hc2
          · exact h
        rw [if_pos hcont]
        exact hrec _ rfl rfl rfl
      · rw [if_pos rfl]
        exact hrec _ rfl rfl rfl
    · have hgap : dtbFree hol ww (b.endDate + 1) = false := by
        cases hg : dtbFree hol ww (b.endDate + 1)
        · rfl
        · exact absurd hg hc
      rw [dtbFree, Bool.or_eq_false_iff] at hgap
      rw [if_neg (by rw [hgap.1]; simp), if_neg (by rw [hgap.2]; simp)]
      refine ⟨b.endDate, rfl, rfl, ?_, le_refl _, ?_, ?_⟩
      · rw [rangeList_empty (by omega)]
        simp
      · rw [dtbFree, hgap.1, hgap.2]
        rfl
      · intro x hx1 hx2
        omega
  termination_by fuel => fuel

theorem dtbFwd_closed (hol : List Int) (ww : List String) (fuel : Nat)
    (b : VacationBlock) (h : dtbFree hol ww (b.endDate + 1) = false) :
    dtbFwd hol ww fuel b = b := by
  cases fuel with
  | zero => rfl
  | succ fuel =>
    rw [dtbFwd]
    rw [dtbFree, Bool.or_eq_false_iff] at h
    rw [if_neg (by rw [h.1]; simp), if_neg (by rw [h.2]; simp)]

/-- Uniqueness of the backward expansion point. -/
theorem backPoint_unique {hol : List Int} {ww : List String}
    (hw : dtbHasWork ww) (a s : Int) (hs1 : s ≤ a)
    (hs2 : ∀ x, s ≤ x → x < a → dtbFree hol ww x = true)
    (hs3 : dtbFree hol ww (s - 1) = false) :
    dtbBackPoint hol ww a = s := by
  obtain ⟨k, hk, hgap⟩ := exists_gap_below hw (a - 1)
  obtain ⟨s0, h1, h2, h3, h4, h5⟩ := dtbBackGo_spec hol ww (dtbFuel hol) a
    ⟨k, hk, by rw [show a - 1 - (k : Nat) = a - 1 - k by ring]; exact hgap⟩
  rw [dtbBackPoint, h1]
  by_contra hne
  rcases lt_or_gt_of_ne hne with hlt | hlt
  · have := h5 (s - 1) (by omega) (by omega)
    rw [this] at hs3
    cases hs3
  · have := hs2 (s0 - 1) (by omega) (by omega)
    rw [this] at h4
    cases h4

/-- Uniqueness of the forward expansion point. -/
theorem fwdPoint_unique {hol : List Int} {ww : List String}
    (hw : dtbHasWork ww) (bnd e : Int) (he1 : bnd ≤ e)
    (he2 : ∀ x, bnd < x → x ≤ e → dtbFree hol ww x = true)
    (he3 : dtbFree hol ww (e + 1) = false) :
    dtbFwdPoint hol ww bnd = e := by
  obtain ⟨k, hk, hgap⟩ := exists_gap_above hw (bnd + 1)
  obtain ⟨e0, h1, h2, h3, h4⟩ := dtbFwdPointGo_spec hol ww (dtbFuel hol) bnd
    ⟨k, hk, by rw [show bnd + 1 + (k : Nat) = bnd + 1 + k by ring]; exact hgap⟩
  rw [dtbFwdPoint, h1]
  by_contra hne
  rcases lt_or_gt_of_ne hne with hlt | hlt
  · have := he2 (e0 + 1) (by omega) (by omega)
    rw [this] at h3
    cases h3
  · have := h4 (e + 1) (by omega) (by omega)
    rw [this] at he3
    cases he3

/-! ## Chain lemmas -/

theorem blockWF_mono {hol : List Int} {ww : List String} {S : List Int}
    {b : VacationBlock} (v : Int) (h : BlockWF hol ww S b) :
    BlockWF hol ww (S ++ [v]) b := by
  obtain ⟨h1, h2, h3, h4, d, hd1, hd2, hd3⟩ := h
  refine ⟨h1, h2, h3, ?_, d, List.mem_append_left _ hd1, hd2, hd3⟩
  intro x hx1 hx2
  rcases h4 x hx1 hx2 with h | h
  · exact Or.inl (List.mem_append_left _ h)
  · exact Or.inr h

theorem chain_pairwise (hol : List Int) (ww : List String) :
    ∀ (bs : List VacationBlock), (∀ b ∈ bs, b.startDate ≤ b.endDate) →
      DtbChain hol ww bs →
      List.Pairwise (fun x y => x.endDate + 1 < y.startDate) bs
  | [], _, _ => List.Pairwise.nil
  | [b], _, _ => List.pairwise_singleton _ b
  | a :: b :: rest, hwf, hch => by
    obtain ⟨hg, hlt, hch'⟩ := hch
    have ih := chain_pairwise hol ww (b :: rest)
      (fun x hx => hwf x (List.mem_cons_of_mem a hx)) hch'
    rw [List.pairwise_cons]
    refine ⟨?_, ih⟩
    intro c hc
    rcases List.mem_cons.1 hc with rfl | hc
    · exact hlt
    · have hbc := (List.pairwise_cons.1 ih).1 c hc
      have hb := hwf b (List.mem_cons_of_mem a (List.mem_cons_self b rest))
      omega

theorem chain_closed_dropLast (hol : List Int) (ww : List String) :
    ∀ (bs : List VacationBlock), DtbChain hol ww bs →
      ∀ b ∈ bs.dropLast, dtbFree hol ww (b.endDate + 1) = false
  | [], _ => by simp
  | [b], _ => by simp
  | a :: b :: rest, hch => by
    obtain ⟨hg, -, hch'⟩ := hch
    intro c hc
    rw [List.dropLast_cons₂, List.mem_cons] at hc
    rcases hc with rfl | hc
    · exact hg
    · exact chain_closed_dropLast hol ww (b :: rest) hch' c hc

theorem chain_replace_last (hol : List Int) (ww : List String) :
    ∀ (l : List VacationBlock) (b b' : VacationBlock),
      b'.startDate = b.startDate → DtbChain hol ww (l ++ [b]) →
      DtbChain hol ww (l ++ [b'])
  | [], _, _, _, _ => trivial
  | [a], b, b', hs, hch => by
    obtain ⟨hg, hlt, -⟩ := hch
    exact ⟨hg, by omega, trivial⟩
  | a :: c :: l, b, b', hs, hch => by
    obtain ⟨hg, hlt, hch'⟩ := hch
    exact ⟨hg, hlt, chain_replace_last hol ww (c :: l) b b' hs hch'⟩

theorem chain_append_one (hol : List Int) (ww : List String) :
    ∀ (l : List VacationBlock) (b c : VacationBlock),
      DtbChain hol ww (l ++ [b]) → dtbFree hol ww (b.endDate + 1) = false →
      b.endDate + 1 < c.startDate → DtbChain hol ww (l ++ [b, c])
  | [], b, c, _, hg, hlt => ⟨hg, hlt, trivial⟩
  | [a], b, c, hch, hg, hlt => by
    obtain ⟨hg', hlt', -⟩ := hch
    exact ⟨hg', hlt', hg, hlt, trivial⟩
  | a :: d :: l, b, c, hch, hg, hlt => by
    obtain ⟨hg', hlt', hch'⟩ := hch
    exact ⟨hg', hlt', chain_append_one hol ww (d :: l) b c hch' hg hlt⟩

theorem ends_le_last (hol : List Int) (ww : List String) :
    ∀ (bs : List VacationBlock) (blast : VacationBlock),
      bs.getLast? = some blast → (∀ b ∈ bs, b.startDate ≤ b.endDate) →
      DtbChain hol ww bs → ∀ b ∈ bs, b.endDate ≤ blast.endDate
  | [], _, h, _, _ => by cases h
  | [b], blast, h, _, _ => by
    rw [List.getLast?_singleton, Option.some_inj] at h
    intro c hc
    rcases List.mem_singleton.1 hc with rfl
    rw [h]
  | a :: b :: rest, blast, h, hwf, hch => by
    obtain ⟨-, hlt, hch'⟩ := hch
    rw [List.getLast?_cons_cons] at h
    have ih := ends_le_last hol ww (b :: rest) blast h
      (fun x hx => hwf x (List.mem_cons_of_mem a hx)) hch'
    intro c hc
    rcases List.mem_cons.1 hc with rfl | hc
    · have hb := ih b (List.mem_cons_self b rest)
      have hb2 := hwf b (List.mem_cons_of_mem c (List.mem_cons_self b rest))
      omega
    · exact ih c hc

/-! ## The extension attempt, characterised -/

theorem dtbTry_cases (hol : List Int) (ww : List String) (v : Int) :
    ∀ (bs : List VacationBlock) (blast : VacationBlock) (S : List Int),
      bs.getLast? = some blast →
      (∀ b ∈ bs, BlockWF hol ww S b) →
      DtbChain hol ww bs →
      (∀ b ∈ bs, b.endDate < v) →
      (∃ ext, dtbTry hol ww v bs = (bs.dropLast ++ [ext], true) ∧
          ext.startDate = blast.startDate ∧ ext.endDate = v ∧
          ext.dates = blast.dates ++ rangeList (blast.endDate + 1) v ∧
          (∀ x, blast.endDate < x → x < v → dtbFree hol ww x = true))
        ∨ (∃ ab g, dtbTry hol ww v bs = (bs.dropLast ++ [ab], false) ∧
            blast.endDate < g ∧ g < v ∧ dtbFree hol ww g = false ∧
            (∀ y, blast.endDate < y → y < g → dtbFree hol ww y = true) ∧
            ab.startDate = blast.startDate ∧ ab.endDate = g - 1 ∧
            ab.dates = blast.dates ++ rangeList (blast.endDate + 1) (g - 1))
  | [], blast, S, h, _, _, _ => by cases h
  | [c], blast, S, h, hwf, hch, hends => by
    rw [List.getLast?_singleton, Option.some_inj] at h
    subst h
    have hlt : c.endDate < v := hends c (List.mem_singleton.2 rfl)
    by_cases hall : ∀ x, c.endDate < x → x < v → dtbFree hol ww x = true
    · obtain ⟨ext, h1, h2, h3, h4⟩ :=
        dtbScan_extends hol ww v ((v - c.endDate).toNat) c hlt rfl hall
      left
      refine ⟨ext, ?_, h2, h3, h4, hall⟩
      rw [dtbTry, h1]
      simp
    · push_neg at hall
      obtain ⟨x, hx1, hx2, hx3⟩ := hall
      have hx3' : dtbFree hol ww x = false := by
        cases hfx : dtbFree hol ww x
        · rfl
        · exact absurd hfx hx3
      obtain ⟨ab, g, h1, h2, h3, h4, h5, h6, h7, h8⟩ :=
        dtbScan_absorbs hol ww v ((v - c.endDate).toNat) c hlt rfl
          ⟨x, hx1, hx2, hx3'⟩
      right
      refine ⟨ab, g, ?_, h2, h3, h4, h5, h6, h7, h8⟩
      rw [dtbTry, h1]
      simp [dtbTry]
  | a :: b :: rest, blast, S, h, hwf, hch, hends => by
    obtain ⟨hga, hltab, hch'⟩ := hch
    rw [List.getLast?_cons_cons] at h
    have hbwf := hwf b (List.mem_cons_of_mem a (List.mem_cons_self b rest))
    have hbv := hends b (List.mem_cons_of_mem a (List.mem_cons_self b rest))
    have hane : a.endDate + 1 ≠ v := by
      have := hbwf.1
      omega
    have hscan := dtbScan_closed hol ww v ((v - a.endDate).toNat) a hga hane
    have ih := dtbTry_cases hol ww v (b :: rest) blast S h
      (fun x hx => hwf x (List.mem_cons_of_mem a hx)) hch'
      (fun x hx => hends x (List.mem_cons_of_mem a hx))
    rw [show (a :: b :: rest).dropLast = a :: (b :: rest).dropLast from
      List.dropLast_cons₂]
    rcases ih with ⟨ext, h1, h2, h3, h4, h5⟩ | ⟨ab, g, h1, h2, h3, h4, h5, h6, h7, h8⟩
    · left
      refine ⟨ext, ?_, h2, h3, h4, h5⟩
      rw [dtbTry, hscan]
      simp only [h1]
      rfl
    · right
      refine ⟨ab, g, ?_, h2, h3, h4, h5, h6, h7, h8⟩
      rw [dtbTry, hscan]
      simp only [h1]
      rfl

/-! ## The grouping step preserves the invariant -/

theorem dtbNewBlock_wf {hol : List Int} {ww : List String}
    (hw : dtbHasWork ww) (S : List Int) (v : Int) :
    BlockWF hol ww (S ++ [v]) (dtbNewBlock hol ww v) ∧
      (dtbNewBlock hol ww v).endDate = v ∧
      dtbFree hol ww ((dtbNewBlock hol ww v).startDate - 1) = false ∧
      (∀ x, (dtbNewBlock hol ww v).startDate ≤ x → x < v →
        dtbFree hol ww x = true) := by
  obtain ⟨s, hs1, hs2, hs3, hs4, hs5⟩ :=
    dtbBackGo_spec hol ww (dtbFuel hol) v (exists_gap_below hw (v - 1))
  have hstart : (dtbNewBlock hol ww v).startDate = s := hs1
  have hend : (dtbNewBlock hol ww v).endDate = v := rfl
  have hdates : (dtbNewBlock hol ww v).dates = rangeList s v := by
    show (dtbBackGo hol ww (dtbFuel hol) v).2.1 ++ [v] = rangeList s v
    rw [hs2, ← rangeList_self v]
    rw [show v = (v - 1) + 1 by ring]
    rw [show (v - 1) + 1 - 1 = v - 1 by ring]
    exact rangeList_append (by omega) (by omega)
  have hfree : ∀ x, s ≤ x → x < v → dtbFree hol ww x = true := by
    intro x hx1 hx2
    exact hs5 x hx1 (by omega)
  refine ⟨⟨by rw [hstart, hend]; exact hs3, by rw [hstart, hend]; exact hdates,
    by rw [hstart]; exact hs4, ?_, ?_⟩, hend, by rw [hstart]; exact hs4,
    by rw [hstart]; exact hfree⟩
  · intro d hd1 hd2
    rw [hstart] at hd1
    rw [hend] at hd2
    by_cases hdv : d = v
    · exact Or.inl (List.mem_append_right _ (hdv ▸ List.mem_singleton.2 rfl))
    · exact Or.inr (hfree d hd1 (by omega))
  · exact ⟨v, List.mem_append_right _ (List.mem_singleton.2 rfl),
      by rw [hstart]; omega, by rw [hend]⟩

theorem dtbStep_state {hol : List Int} {ww : List String}
    (hw : dtbHasWork ww) (S : List Int) (bs : List VacationBlock) (v : Int)
    (hst : DtbState hol ww S bs) (hnew : ∀ x ∈ S, x < v) :
    DtbState hol ww (S ++ [v]) (dtbStep hol ww bs v) := by
  obtain ⟨hwf, hchain, hcover, hemp, hlast⟩ := hst
  obtain ⟨hnbwf, hnbe, hnbg, hnbf⟩ := dtbNewBlock_wf hw S v
  cases bs with
  | nil =>
    have hSnil : S = [] := hemp rfl
    subst hSnil
    have hstep : dtbStep hol ww [] v = [dtbNewBlock hol ww v] := rfl
    rw [hstep]
    refine ⟨?_, trivial, ?_, by simp, ?_⟩
    · intro b hb
      rw [List.mem_singleton] at hb
      exact hb ▸ hnbwf
    · intro x hx
      simp only [List.nil_append, List.mem_singleton] at hx
      refine ⟨dtbNewBlock hol ww v, List.mem_singleton.2 rfl, ?_, by rw [hx, hnbe]⟩
      rw [hx]
      have h1 := hnbwf.1
      rw [hnbe] at h1
      exact h1
    · intro bl hbl
      rw [List.getLast?_singleton, Option.some_inj] at hbl
      subst hbl
      refine ⟨by rw [hnbe]; exact List.mem_append_right _ (List.mem_singleton.2 rfl), ?_⟩
      intro x hx
      simp only [List.nil_append, List.mem_singleton] at hx
      rw [hx, hnbe]
  | cons a rest =>
    have hne : (a :: rest) ≠ [] := by simp
    set blast := (a :: rest).getLast hne with hbdef
    have hblast : (a :: rest).getLast? = some blast :=
      List.getLast?_eq_getLast _ hne
    have hdecomp : (a :: rest).dropLast ++ [blast] = a :: rest :=
      List.dropLast_append_getLast hne
    have hblmem : blast ∈ a :: rest := by
      rw [hbdef]
      exact List.getLast_mem hne
    have hstarts : ∀ b ∈ a :: rest, b.startDate ≤ b.endDate :=
      fun b hb => (hwf b hb).1
    have hlastS := hlast blast hblast
    have hbv : blast.endDate < v := hnew _ hlastS.1
    have hends : ∀ b ∈ a :: rest, b.endDate < v := by
      intro b hb
      have := ends_le_last hol ww _ blast hblast hstarts hchain b hb
      omega
    have hsub : (a :: rest).dropLast ⊆ a :: rest := List.dropLast_subset _
    obtain ⟨hb1, hb2, hb3, hb4, d0, hd01, hd02, hd03⟩ := hwf blast hblmem
    have hch2 : DtbChain hol ww ((a :: rest).dropLast ++ [blast]) := by
      rw [hdecomp]
      exact hchain
    rcases dtbTry_cases hol ww v (a :: rest) blast S hblast hwf hchain hends with
      ⟨ext, h1, h2, h3, h4, h5⟩ | ⟨ab, g, h1, h2, h3, h4, h5, h6, h7, h8⟩
    · have hstep : dtbStep hol ww (a :: rest) v
          = (a :: rest).dropLast ++ [ext] := by
        unfold dtbStep
        rw [h1]
        rfl
      rw [hstep]
      have hextwf : BlockWF hol ww (S ++ [v]) ext := by
        refine ⟨by omega, ?_, by rw [h2]; exact hb3, ?_, ?_⟩
        · rw [h4, hb2, h2, h3]
          exact rangeList_append (by omega) (by omega)
        · intro x hx1 hx2
          rw [h2] at hx1
          rw [h3] at hx2
          by_cases hxb : x ≤ blast.endDate
          · rcases hb4 x hx1 hxb with h | h
            · exact Or.inl (List.mem_append_left _ h)
            · exact Or.inr h
          · by_cases hxv : x = v
            · exact Or.inl (List.mem_append_right _ (hxv ▸ List.mem_singleton.2 rfl))
            · exact Or.inr (h5 x (by omega) (by omega))
        · exact ⟨v, List.mem_append_right _ (List.mem_singleton.2 rfl),
            by rw [h2]; omega, by rw [h3]⟩
      refine ⟨?_, ?_, ?_, by simp, ?_⟩
      · intro b hb
        rcases List.mem_append.1 hb with hb | hb
        · exact blockWF_mono v (hwf b (hsub hb))
        · rw [List.mem_singleton] at hb
          exact hb ▸ hextwf
      · exact chain_replace_last hol ww _ blast ext h2 hch2
      · intro x hx
        rcases List.mem_append.1 hx with hx | hx
        · obtain ⟨b, hb, hr1, hr2⟩ := hcover x hx
          rw [← hdecomp] at hb
          rcases List.mem_append.1 hb with hb | hb
          · exact ⟨b, List.mem_append_left _ hb, hr1, hr2⟩
          · rw [List.mem_singleton] at hb
            subst hb
            refine ⟨ext, List.mem_append_right _ (List.mem_singleton.2 rfl),
              by omega, by rw [h3]; omega⟩
        · rw [List.mem_singleton] at hx
          subst hx
          refine ⟨ext, List.mem_append_right _ (List.mem_singleton.2 rfl),
            by omega, by rw [h3]⟩
      · intro bl hbl
        rw [List.getLast?_concat, Option.some_inj] at hbl
        subst hbl
        refine ⟨by rw [h3]; exact List.mem_append_right _ (List.mem_singleton.2 rfl), ?_⟩
        intro x hx
        rcases List.mem_append.1 hx with hx | hx
        · have := hnew x hx
          rw [h3]
          omega
        · rw [List.mem_singleton] at hx
          rw [hx, h3]
    · have hstep : dtbStep hol ww (a :: rest) v
          = ((a :: rest).dropLast ++ [ab]) ++ [dtbNewBlock hol ww v] := by
        unfold dtbStep
        rw [h1]
        rfl
      rw [hstep]
      have hbe : blast.endDate ≤ g - 1 := by omega
      have habwf : BlockWF hol ww (S ++ [v]) ab := by
        refine ⟨by omega, ?_, by rw [h6]; exact hb3, ?_, ?_⟩
        · rw [h8, hb2, h6, h7]
          exact rangeList_append (by omega) (by omega)
        · intro x hx1 hx2
          rw [h6] at hx1
          rw [h7] at hx2
          by_cases hxb : x ≤ blast.endDate
          · rcases hb4 x hx1 hxb with h | h
            · exact Or.inl (List.mem_append_left _ h)
            · exact Or.inr h
          · exact Or.inr (h5 x (by omega) (by omega))
        · exact ⟨d0, List.mem_append_left _ hd01, by rw [h6]; omega,
            by rw [h7]; omega⟩
      have hgs : g < (dtbNewBlock hol ww v).startDate := by
        by_contra hcon
        push_neg at hcon
        have := hnbf g hcon (by omega)
        rw [this] at h4
        cases h4
      refine ⟨?_, ?_, ?_, by simp, ?_⟩
      · intro b hb
        rcases List.mem_append.1 hb with hb | hb
        · rcases List.mem_append.1 hb with hb | hb
          · exact blockWF_mono v (hwf b (hsub hb))
          · rw [List.mem_singleton] at hb
            exact hb ▸ habwf
        · rw [List.mem_singleton] at hb
          exact hb ▸ hnbwf
      · rw [List.append_assoc]
        rw [show [ab] ++ [dtbNewBlock hol ww v] = [ab, dtbNewBlock hol ww v] from rfl]
        refine chain_append_one hol ww _ ab (dtbNewBlock hol ww v) ?_ ?_ ?_
        · exact chain_replace_last hol ww _ blast ab h6 hch2
        · rw [h7]
          rw [show g - 1 + 1 = g by ring]
          exact h4
        · rw [h7]
          omega
      · intro x hx
        rcases List.mem_append.1 hx with hx | hx
        · obtain ⟨b, hb, hr1, hr2⟩ := hcover x hx
          rw [← hdecomp] at hb
          rcases List.mem_append.1 hb with hb | hb
          · exact ⟨b, List.mem_append_left _ (List.mem_append_left _ hb), hr1, hr2⟩
          · rw [List.mem_singleton] at hb
            subst hb
            refine ⟨ab, List.mem_append_left _
              (List.mem_append_right _ (List.mem_singleton.2 rfl)),
              by omega, by rw [h7]; omega⟩
        · rw [List.mem_singleton] at hx
          refine ⟨dtbNewBlock hol ww v,
            List.mem_append_right _ (List.mem_singleton.2 rfl), ?_, by rw [hx, hnbe]⟩
          rw [hx]
          have h9 := hnbwf.1
          rw [hnbe] at h9
          exact h9
      · intro bl hbl
        rw [List.getLast?_concat, Option.some_inj] at hbl
        subst hbl
        refine ⟨by rw [hnbe]; exact List.mem_append_right _ (List.mem_singleton.2 rfl), ?_⟩
        intro x hx
        rcases List.mem_append.1 hx with hx | hx
        · have := hnew x hx
          rw [hnbe]
          omega
        · rw [List.mem_singleton] at hx
          rw [hx, hnbe]

/-! ## The invariant after the whole fold and the final expansion -/

theorem dtbFold_state {hol : List Int} {ww : List String} (hw : dtbHasWork ww) :
    ∀ (l : List Int) (S : List Int) (bs : List VacationBlock),
      DtbState hol ww S bs → (∀ x ∈ S, ∀ y ∈ l, x < y) →
      l.Pairwise (· < ·) →
      DtbState hol ww (S ++ l) (l.foldl (dtbStep hol ww) bs)
  | [], S, bs, hst, _, _ => by simpa using hst
  | v :: l, S, bs, hst, hxl, hpl => by
    rw [List.foldl_cons]
    have h1 := dtbStep_state hw S bs v hst
      (fun x hx => hxl x hx v (List.mem_cons_self v l))
    have h2 := dtbFold_state hw l (S ++ [v]) _ h1 ?_ ((List.pairwise_cons.1 hpl).2)
    · rw [show S ++ v :: l = (S ++ [v]) ++ l by simp]
      exact h2
    · intro x hx y hy
      rcases List.mem_append.1 hx with hx | hx
      · exact hxl x hx y (List.mem_cons_of_mem v hy)
      · rw [List.mem_singleton] at hx
        exact hx ▸ (List.pairwise_cons.1 hpl).1 y hy

/-- The invariant of the fully processed, forward-expanded block list. -/
def DtbFinal (hol : List Int) (ww : List String) (S : List Int)
    (bs : List VacationBlock) : Prop :=
  (∀ b ∈ bs, BlockWF hol ww S b) ∧
    List.Pairwise (fun x y => x.endDate + 1 < y.startDate) bs ∧
    (∀ b ∈ bs, dtbFree hol ww (b.endDate + 1) = false) ∧
    (∀ x ∈ S, ∃ b ∈ bs, b.startDate ≤ x ∧ x ≤ b.endDate)

theorem dtbFinal_of_state {hol : List Int} {ww : List String}
    (hw : dtbHasWork ww) (S : List Int) (bs : List VacationBlock)
    (hst : DtbState hol ww S bs) :
    DtbFinal hol ww S (bs.map (dtbFwd hol ww (dtbFuel hol))) := by
  obtain ⟨hwf, hchain, hcover, hemp, hlast⟩ := hst
  cases bs with
  | nil =>
    have hSnil : S = [] := hemp rfl
    subst hSnil
    exact ⟨by simp, by simp, by simp, by simp⟩
  | cons a rest =>
    have hne : (a :: rest) ≠ [] := by simp
    set blast := (a :: rest).getLast hne with hbdef
    have hblast : (a :: rest).getLast? = some blast :=
      List.getLast?_eq_getLast _ hne
    have hdecomp : (a :: rest).dropLast ++ [blast] = a :: rest :=
      List.dropLast_append_getLast hne
    have hblmem : blast ∈ a :: rest := by
      rw [hbdef]
      exact List.getLast_mem hne
    have hclosed := chain_closed_dropLast hol ww (a :: rest) hchain
    have hsub : (a :: rest).dropLast ⊆ a :: rest := List.dropLast_subset _
    obtain ⟨hb1, hb2, hb3, hb4, d0, hd01, hd02, hd03⟩ := hwf blast hblmem
    obtain ⟨e, hf1, hf2, hf3, hf4, hf5, hf6⟩ :=
      dtbFwd_spec hol ww (dtbFuel hol) blast (exists_gap_above hw (blast.endDate + 1))
    have hmap : (a :: rest).map (dtbFwd hol ww (dtbFuel hol))
        = (a :: rest).dropLast ++ [dtbFwd hol ww (dtbFuel hol) blast] := by
      conv =>
        lhs
        rw [← hdecomp]
      rw [List.map_append]
      congr 1
      · calc List.map (dtbFwd hol ww (dtbFuel hol)) (a :: rest).dropLast
            = List.map id (a :: rest).dropLast :=
              List.map_congr_left
                (fun b hb => dtbFwd_closed hol ww _ b (hclosed b hb))
          _ = (a :: rest).dropLast := List.map_id _
    rw [hmap]
    have hfwf : BlockWF hol ww S (dtbFwd hol ww (dtbFuel hol) blast) := by
      refine ⟨by omega, ?_, by rw [hf1]; exact hb3, ?_, ?_⟩
      · rw [hf3, hb2, hf1, hf2]
        exact rangeList_append (by omega) (by omega)
      · intro x hx1 hx2
        rw [hf1] at hx1
        rw [hf2] at hx2
        by_cases hxb : x ≤ blast.endDate
        · exact hb4 x hx1 hxb
        · exact Or.inr (hf6 x (by omega) hx2)
      · exact ⟨d0, hd01, by rw [hf1]; omega, by rw [hf2]; omega⟩
    have hch3 : DtbChain hol ww
        ((a :: rest).dropLast ++ [dtbFwd hol ww (dtbFuel hol) blast]) := by
      refine chain_replace_last hol ww _ blast _ hf1 ?_
      rw [hdecomp]
      exact hchain
    refine ⟨?_, ?_, ?_, ?_⟩
    · intro b hb
      rcases List.mem_append.1 hb with hb | hb
      · exact hwf b (hsub hb)
      · rw [List.mem_singleton] at hb
        exact hb ▸ hfwf
    · apply chain_pairwise hol ww _ ?_ hch3
      intro b hb
      rcases List.mem_append.1 hb with hb | hb
      · exact (hwf b (hsub hb)).1
      · rw [List.mem_singleton] at hb
        subst hb
        exact hfwf.1
    · intro b hb
      rcases List.mem_append.1 hb with hb | hb
      · exact hclosed b hb
      · rw [List.mem_singleton] at hb
        subst hb
        rw [hf2]
        exact hf5
    · intro x hx
      obtain ⟨b, hb, hr1, hr2⟩ := hcover x hx
      rw [← hdecomp] at hb
      rcases List.mem_append.1 hb with hb | hb
      · exact ⟨b, List.mem_append_left _ hb, hr1, hr2⟩
      · rw [List.mem_singleton] at hb
        subst hb
        refine ⟨dtbFwd hol ww (dtbFuel hol) blast,
          List.mem_append_right _ (List.mem_singleton.2 rfl),
          by rw [hf1]; exact hr1, by rw [hf2]; omega⟩

theorem datesToBlocksSorted_final {hol : List Int} {ww : List String}
    (hw : dtbHasWork ww) (S : List Int) (hS : S.Pairwise (· < ·)) :
    DtbFinal hol ww S (datesToBlocksSorted hol ww S) := by
  unfold datesToBlocksSorted
  apply dtbFinal_of_state hw
  have base : DtbState hol ww [] [] := by
    refine ⟨by simp, trivial, by simp, fun _ => rfl, ?_⟩
    intro blast h
    cases h
  have := dtbFold_state hw S [] [] base (by simp) hS
  simpa using this

/-- Any two list members of a pairwise list are equal or related one way. -/
theorem pairwise_mem_cases {α : Type} {R : α → α → Prop} {l : List α}
    (h : List.Pairwise R l) :
    ∀ b1 ∈ l, ∀ b2 ∈ l, b1 = b2 ∨ R b1 b2 ∨ R b2 b1 := by
  intro b1 hb1 b2 hb2
  rw [List.mem_iff_getElem] at hb1 hb2
  obtain ⟨i, hi, rfl⟩ := hb1
  obtain ⟨j, hj, rfl⟩ := hb2
  rcases lt_trichotomy i j with hij | hij | hij
  · exact Or.inr (Or.inl (List.pairwise_iff_getElem.1 h i j hi hj hij))
  · subst hij
    exact Or.inl rfl
  · exact Or.inr (Or.inr (List.pairwise_iff_getElem.1 h j i hj hi hij))

/-- Two processed vacation dates lie in a common final block exactly when
every day strictly between them is absorbable or itself a vacation date. -/
theorem dtb_sameBlock_iff {hol : List Int} {ww : List String}
    (S : List Int) (bs : List VacationBlock) (hfin : DtbFinal hol ww S bs)
    (d1 d2 : Int) (hd1 : d1 ∈ S) (hd2 : d2 ∈ S) (hlt : d1 < d2) :
    (∃ b ∈ bs, d1 ∈ b.dates ∧ d2 ∈ b.dates) ↔
      (∀ x, d1 < x → x < d2 → dtbFree hol ww x = true ∨ x ∈ S) := by
  obtain ⟨hwf, hpair, hclosed, hcover⟩ := hfin
  constructor
  · rintro ⟨b, hb, hm1, hm2⟩ x hx1 hx2
    obtain ⟨h1, h2, h3, h4, -⟩ := hwf b hb
    rw [h2, mem_rangeList] at hm1 hm2
    rcases h4 x (by omega) (by omega) with h | h
    · exact Or.inr h
    · exact Or.inl h
  · intro hall
    obtain ⟨b1, hb1, hr11, hr12⟩ := hcover d1 hd1
    obtain ⟨b2, hb2, hr21, hr22⟩ := hcover d2 hd2
    by_cases heq : b1 = b2
    · subst heq
      obtain ⟨h1, h2, -, -, -⟩ := hwf b1 hb1
      exact ⟨b1, hb1, by rw [h2, mem_rangeList]; omega,
        by rw [h2, mem_rangeList]; omega⟩
    · exfalso
      rcases pairwise_mem_cases hpair b1 hb1 b2 hb2 with h | h | h
      · exact heq h
      · set g := b1.endDate + 1 with hgdef
        have hgap : dtbFree hol ww g = false := hclosed b1 hb1
        have hg1 : d1 < g := by omega
        have hg2 : g < d2 := by omega
        rcases hall g hg1 hg2 with hfree | hmem
        · rw [hfree] at hgap
          cases hgap
        · obtain ⟨b3, hb3, hr31, hr32⟩ := hcover g hmem
          rcases pairwise_mem_cases hpair b3 hb3 b1 hb1 with h3 | h3 | h3
          · subst h3
            omega
          · have hb1wf := (hwf b1 hb1).1
            omega
          · omega
      · have hb2wf := (hwf b2 hb2).1
        omega

/-! ## Claim C8: grouping characterisation of `datesToBlocks` -/

theorem sortBy_le_sorted (l : List Int) :
    List.Sorted (· ≤ ·) (sortBy (fun a b => a ≤ b) l) := by
  have hp := @pairwise_sortBy Int (fun (a b : Int) => decide (a ≤ b))
    (fun a b => by
      rcases le_total a b with h | h
      · exact Or.inl (decide_eq_true h)
      · exact Or.inr (decide_eq_true h))
    (fun a b c hab hbc =>
      decide_eq_true (le_trans (of_decide_eq_true hab) (of_decide_eq_true hbc))) l
  exact hp.imp (fun h => of_decide_eq_true h)

theorem sortBy_le_strict {l : List Int} (hnd : l.Nodup) :
    (sortBy (fun a b => a ≤ b) l).Pairwise (· < ·) := by
  have hs := sortBy_le_sorted l
  have hn : (sortBy (fun a b => a ≤ b) l).Nodup :=
    (perm_sortBy _ l).nodup_iff.2 hnd
  exact (hs.and hn).imp (fun h => lt_of_le_of_ne h.1 h.2)

theorem sortBy_le_congr {l1 l2 : List Int} (h : l1.Perm l2) :
    sortBy (fun a b => a ≤ b) l1 = sortBy (fun a b => a ≤ b) l2 := by
  refine List.eq_of_perm_of_sorted ?_ (sortBy_le_sorted l1) (sortBy_le_sorted l2)
  exact (perm_sortBy _ l1).trans (h.trans (perm_sortBy _ l2).symm)

theorem raw_ne_nil_of_mem {raw : List (Option Int)} {d : Int}
    (hd : d ∈ raw.filterMap id) : raw.isEmpty = false := by
  cases raw with
  | nil => cases hd
  | cons a l => rfl

/-- Counterexample to C8 as stated: with the standard work week and no
holidays, the input dates 1 (a Monday) and 3 (a Wednesday) land in separate
blocks — but when 2 is also an input date all three merge into one block even
though day 2 is a work day and not a holiday, so "same block iff every day
strictly between is weekend or holiday" fails. -/
theorem claim_C8_counterexample :
    ¬ ((∃ b ∈ datesToBlocks [] wwStd [some 1, some 2, some 3],
          (1 : Int) ∈ b.dates ∧ (3 : Int) ∈ b.dates) ↔
        (∀ x : Int, 1 < x → x < 3 → dtbFree [] wwStd x = true)) := by
  intro h
  have h2 : dtbFree [] wwStd 2 = true := h.1 (by decide) 2 (by decide) (by decide)
  exact absurd h2 (by decide)

/-- C8 (amended): provided the work week names at least one weekday (the Go
expansion loops diverge otherwise) and the parsed input dates are pairwise
distinct, two parsed input vacation dates end up in the same returned block
if and only if every calendar day strictly between them is a weekend, a
holiday, or itself a parsed input vacation date; the grouping gives the same
result for any permutation of the input list because the dates are sorted
first; and input entries that do not parse as dates are silently ignored. -/
theorem claim_C8_amended (hol : List Int) (ww : List String)
    (raw : List (Option Int)) (hw : dtbHasWork ww)
    (hnd : (raw.filterMap id).Nodup) (d1 d2 : Int)
    (hd1 : d1 ∈ raw.filterMap id) (hd2 : d2 ∈ raw.filterMap id)
    (hlt : d1 < d2) :
    ((∃ b ∈ datesToBlocks hol ww raw, d1 ∈ b.dates ∧ d2 ∈ b.dates) ↔
        (∀ x, d1 < x → x < d2 →
          dtbFree hol ww x = true ∨ x ∈ raw.filterMap id)) ∧
      (∀ raw', raw.Perm raw' →
        datesToBlocks hol ww raw = datesToBlocks hol ww raw') ∧
      datesToBlocks hol ww raw
        = datesToBlocks hol ww ((raw.filterMap id).map some) := by
  have hperm := perm_sortBy (fun (a b : Int) => decide (a ≤ b)) (raw.filterMap id)
  have hdtb : datesToBlocks hol ww raw
      = datesToBlocksSorted hol ww (sortBy (fun a b => a ≤ b) (raw.filterMap id)) := by
    rw [datesToBlocks, raw_ne_nil_of_mem hd1]
    simp
  have hfin := @datesToBlocksSorted_final hol ww hw _ (sortBy_le_strict hnd)
  refine ⟨?_, ?_, ?_⟩
  · rw [hdtb]
    have hiff := dtb_sameBlock_iff _ _ hfin d1 d2
      (hperm.mem_iff.2 hd1) (hperm.mem_iff.2 hd2) hlt
    rw [hiff]
    constructor
    · intro h x hx1 hx2
      rcases h x hx1 hx2 with h | h
      · exact Or.inl h
      · exact Or.inr (hperm.mem_iff.1 h)
    · intro h x hx1 hx2
      rcases h x hx1 hx2 with h | h
      · exact Or.inl h
      · exact Or.inr (hperm.mem_iff.2 h)
  · intro raw' hp
    by_cases hre : raw = []
    · subst hre
      rw [hp.symm.eq_nil]
    · have hre' : raw' ≠ [] := by
        intro hcon
        subst hcon
        exact hre hp.eq_nil
      rw [datesToBlocks, datesToBlocks,
        if_neg (by simp [List.isEmpty_iff, hre]),
        if_neg (by simp [List.isEmpty_iff, hre'])]
      rw [sortBy_le_congr (hp.filterMap id)]
  · have hre : raw.isEmpty = false := raw_ne_nil_of_mem hd1
    have hre2 : ((raw.filterMap id).map some).isEmpty = false := by
      cases hfm : raw.filterMap id with
      | nil => rw [hfm] at hd1; cases hd1
      | cons a l => rfl
    rw [datesToBlocks, datesToBlocks, hre, hre2]
    simp only [Bool.false_eq_true, if_false]
    rw [show ((raw.filterMap id).map some).filterMap id = raw.filterMap id by simp]

/-- Witness for the amended C8 at a concrete input: parsed dates 1 (Monday)
and 3 (Wednesday) with a garbage entry, standard work week, no holidays. -/
theorem claim_C8_witness :
    ((∃ b ∈ datesToBlocks [] wwStd [some 1, some 3, none],
          (1 : Int) ∈ b.dates ∧ (3 : Int) ∈ b.dates) ↔
        (∀ x, (1 : Int) < x → x < 3 →
          dtbFree [] wwStd x = true ∨ x ∈ ([some 1, some 3, none] : List (Option Int)).filterMap id)) ∧
      (∀ raw', List.Perm [some 1, some 3, none] raw' →
        datesToBlocks [] wwStd [some 1, some 3, none] = datesToBlocks [] wwStd raw') ∧
      datesToBlocks [] wwStd [some 1, some 3, none]
        = datesToBlocks [] wwStd ((([some 1, some 3, none] : List (Option Int)).filterMap id).map some) :=
  claim_C8_amended [] wwStd [some 1, some 3, none]
    ⟨.monday, by decide⟩ (by decide) 1 3 (by decide) (by decide) (by decide)

/-! ## Claim C7: round-trip through `datesToBlocks` -/

theorem bridgeIntervals_le (h : Int) : ∀ p ∈ bridgeIntervals h, p.1 ≤ p.2 := by
  intro p hp
  unfold bridgeIntervals at hp
  rcases hq : weekdayOf h with _ | _ | _ | _ | _ | _ | _ <;> rw [hq] at hp <;>
    simp only [List.mem_singleton, List.mem_cons, List.not_mem_nil,
      or_false] at hp
  case monday => subst hp; simp
  case tuesday => subst hp; simp
  case thursday => subst hp; simp
  case friday => subst hp; simp
  case wednesday =>
    rcases hp with rfl | rfl <;> simp

theorem bridge_shape (o : Optimizer) (h0 : Int) :
    ∀ b ∈ bridgeFor o h0, ∃ s e : Int, s ≤ e ∧ b = o.calculateBlock s e := by
  intro b hb
  rw [bridgeFor_eq_bridgeSpec] at hb
  unfold bridgeSpec at hb
  rw [List.mem_filter] at hb
  obtain ⟨hb, -⟩ := hb
  rw [List.mem_map] at hb
  obtain ⟨p, hp, rfl⟩ := hb
  exact ⟨p.1, p.2, bridgeIntervals_le h0 p hp, rfl⟩

theorem week_shape (o : Optimizer) (h0 : Int) :
    ∀ b ∈ weekBlocksFor o h0, ∃ s e : Int, s ≤ e ∧ b = o.calculateBlock s e := by
  intro b hb
  unfold weekBlocksFor at hb
  simp only [List.mem_append] at hb
  rcases hb with hb | hb <;> split_ifs at hb <;>
    first
      | exact absurd hb (List.not_mem_nil b)
      | (rw [List.mem_singleton] at hb
         exact ⟨_, _, by omega, hb⟩)

theorem optimize_block_shape (o : Optimizer) :
    ∀ b ∈ o.Optimize,
      b.startDate ≤ b.endDate ∧ b.dates = rangeList b.startDate b.endDate := by
  intro b hb
  obtain ⟨pool, hp, hmem⟩ := Optimize_eq_selectGo o
  rw [hp] at hb
  have hbp := selectGo_subset o pool 0 o.manualVacations b hb
  have hshape : ∃ s e : Int, s ≤ e ∧ b = o.calculateBlock s e := by
    rcases hmem b hbp with h | h
    · rw [findBridge_eq_flatMap, List.mem_flatMap] at h
      obtain ⟨x, -, hx⟩ := h
      exact bridge_shape o x b hx
    · rw [findAll_eq_flatMap] at h
      have hsub := dedupGo_subset [] _ b h
      rw [List.mem_append] at hsub
      rcases hsub with h | h <;> rw [List.mem_flatMap] at h <;>
        obtain ⟨x, -, hx⟩ := h
      · exact bridge_shape o x b hx
      · exact week_shape o x b hx
  obtain ⟨s, e, hse, rfl⟩ := hshape
  rw [calculateBlock_start, calculateBlock_end, calculateBlock_dates]
  exact ⟨hse, rfl⟩

theorem optimize_pairwise (o : Optimizer) :
    List.Pairwise (fun a b => ∀ d ∈ a.dates, d ∉ b.dates) o.Optimize := by
  obtain ⟨pool, hp, -⟩ := Optimize_eq_selectGo o
  rw [hp]
  exact (selectGo_disjoint o pool 0 o.manualVacations).1

theorem nodup_flatMap_dates :
    ∀ (R : List VacationBlock), (∀ r ∈ R, r.dates.Nodup) →
      List.Pairwise (fun a b => ∀ d ∈ a.dates, d ∉ b.dates) R →
      (R.flatMap (fun r => r.dates)).Nodup
  | [], _, _ => by simp
  | r :: R, hnd, hpw => by
    rw [List.flatMap_cons, List.nodup_append]
    obtain ⟨hhead, htail⟩ := List.pairwise_cons.1 hpw
    refine ⟨hnd r (List.mem_cons_self r R),
      nodup_flatMap_dates R (fun x hx => hnd x (List.mem_cons_of_mem r hx)) htail, ?_⟩
    intro d hd hdmem
    rw [List.mem_flatMap] at hdmem
    obtain ⟨r', hr', hdr'⟩ := hdmem
    exact hhead r' hr' d hd hdr'

/-- Concrete optimizer instance refuting C7 as stated: 2024-style week, four
vacation days, balanced strategy, holidays on days 11 (Thursday), 18
(Thursday) and 19 (Friday). -/
def oC7 : Optimizer :=
  { year := 2024
    vacationDays := 4
    workWeek := wwStd
    strategy := "balanced"
    holidays := [11, 18, 19]
    manualVacations := [] }

/-- Counterexample to C7 as stated: on `oC7` the optimizer returns two
separated blocks whose concatenated dates nevertheless merge into a single
`DatesToBlocks` block (the in-between days are weekend or holiday), so the
round trip does not reproduce the per-block expanded boundaries: one of the
optimizer blocks has no `DatesToBlocks` block with its expanded start and
end. -/
theorem claim_C7_counterexample :
    ¬ (∀ r ∈ oC7.Optimize,
        ∃ b ∈ datesToBlocks oC7.holidays oC7.workWeek
            ((oC7.Optimize.flatMap (fun r => r.dates)).map some),
          b.startDate = dtbBackPoint oC7.holidays oC7.workWeek r.startDate ∧
          b.endDate = dtbFwdPoint oC7.holidays oC7.workWeek r.endDate) := by
  decide

/-- C7 (amended): feeding the concatenation of the optimizer blocks' dates
into `DatesToBlocks` with the same holidays and work week reproduces the
expanded block boundaries — provided the work week names at least one real
weekday and the selected blocks are separated by at least one
non-absorbable day lying in no selected block. Each output block's start
and end are the backward/forward weekend-and-holiday expansion of some
selected block's boundaries, and every selected block is so represented. -/
theorem claim_C7_amended (o : Optimizer) (hw : dtbHasWork o.workWeek)
    (hsep : ∀ A ∈ o.Optimize, ∀ B ∈ o.Optimize, A.endDate < B.startDate →
      ∃ g : Int, A.endDate < g ∧ g < B.startDate ∧
        dtbFree o.holidays o.workWeek g = false ∧
        ∀ C ∈ o.Optimize, ¬ (C.startDate ≤ g ∧ g ≤ C.endDate)) :
    (∀ b ∈ datesToBlocks o.holidays o.workWeek
        ((o.Optimize.flatMap (fun r => r.dates)).map some),
      ∃ r ∈ o.Optimize,
        b.startDate = dtbBackPoint o.holidays o.workWeek r.startDate ∧
        b.endDate = dtbFwdPoint o.holidays o.workWeek r.endDate) ∧
    (∀ r ∈ o.Optimize,
      ∃ b ∈ datesToBlocks o.holidays o.workWeek
          ((o.Optimize.flatMap (fun r => r.dates)).map some),
        b.startDate = dtbBackPoint o.holidays o.workWeek r.startDate ∧
        b.endDate = dtbFwdPoint o.holidays o.workWeek r.endDate) := by
  by_cases hR : o.Optimize = []
  · constructor
    · intro b hb
      rw [hR] at hb
      simp only [List.flatMap_nil, List.map_nil] at hb
      rw [show datesToBlocks o.holidays o.workWeek [] = [] from rfl] at hb
      cases hb
    · intro r hr
      rw [hR] at hr
      cases hr
  · have hshape := optimize_block_shape o
    have hpw := optimize_pairwise o
    have hmemP : ∀ x : Int, x ∈ o.Optimize.flatMap (fun r => r.dates) ↔
        ∃ r ∈ o.Optimize, r.startDate ≤ x ∧ x ≤ r.endDate := by
      intro x
      rw [List.mem_flatMap]
      constructor
      · rintro ⟨r, hr, hx⟩
        rw [(hshape r hr).2, mem_rangeList] at hx
        exact ⟨r, hr, hx⟩
      · rintro ⟨r, hr, hx1, hx2⟩
        refine ⟨r, hr, ?_⟩
        rw [(hshape r hr).2, mem_rangeList]
        exact ⟨hx1, hx2⟩
    have hndP : (o.Optimize.flatMap (fun r => r.dates)).Nodup := by
      apply nodup_flatMap_dates _ _ hpw
      intro r hr
      rw [(hshape r hr).2]
      exact rangeList_nodup _ _
    obtain ⟨r0, R', hcons⟩ : ∃ r0 R', o.Optimize = r0 :: R' := by
      cases hE : o.Optimize with
      | nil => exact absurd hE hR
      | cons a l => exact ⟨a, l, rfl⟩
    have hr0 : r0 ∈ o.Optimize := by
      rw [hcons]
      exact List.mem_cons_self r0 R'
    have hs0 : r0.startDate ∈ o.Optimize.flatMap (fun r => r.dates) :=
      (hmemP r0.startDate).2 ⟨r0, hr0, le_refl _, (hshape r0 hr0).1⟩
    have hfm : (((o.Optimize.flatMap (fun r => r.dates)).map some).filterMap id)
        = o.Optimize.flatMap (fun r => r.dates) := by
      simp
    have hiE : (((o.Optimize.flatMap (fun r => r.dates)).map some)).isEmpty = false := by
      have hmem : r0.startDate
          ∈ (((o.Optimize.flatMap (fun r => r.dates)).map some)).filterMap id := by
        rw [hfm]
        exact hs0
      exact raw_ne_nil_of_mem hmem
    have hdtb : datesToBlocks o.holidays o.workWeek
          ((o.Optimize.flatMap (fun r => r.dates)).map some)
        = datesToBlocksSorted o.holidays o.workWeek
            (sortBy (fun a b => a ≤ b) (o.Optimize.flatMap (fun r => r.dates))) := by
      rw [datesToBlocks, hiE]
      simp only [Bool.false_eq_true, if_false]
      rw [hfm]
    have hperm := perm_sortBy (fun (a b : Int) => decide (a ≤ b))
      (o.Optimize.flatMap (fun r => r.dates))
    have hfin := @datesToBlocksSorted_final o.holidays o.workWeek hw _
      (sortBy_le_strict hndP)
    have hwfF := hfin.1
    have hpairF := hfin.2.1
    have hclosedF := hfin.2.2.1
    have hcoverF := hfin.2.2.2
    have huniq : ∀ b1 ∈ datesToBlocksSorted o.holidays o.workWeek
          (sortBy (fun a b => a ≤ b) (o.Optimize.flatMap (fun r => r.dates))),
        ∀ b2 ∈ datesToBlocksSorted o.holidays o.workWeek
          (sortBy (fun a b => a ≤ b) (o.Optimize.flatMap (fun r => r.dates))),
        ∀ x : Int, b1.startDate ≤ x → x ≤ b1.endDate →
          b2.startDate ≤ x → x ≤ b2.endDate → b1 = b2 := by
      intro b1 hb1 b2 hb2 x h1 h2 h3 h4
      rcases pairwise_mem_cases hpairF b1 hb1 b2 hb2 with h | h | h
      · exact h
      · omega
      · omega
    have hcontain : ∀ b ∈ datesToBlocksSorted o.holidays o.workWeek
          (sortBy (fun a b => a ≤ b) (o.Optimize.flatMap (fun r => r.dates))),
        ∀ r ∈ o.Optimize, ∀ x : Int,
          r.startDate ≤ x → x ≤ r.endDate → b.startDate ≤ x → x ≤ b.endDate →
          ∀ y : Int, r.startDate ≤ y → y ≤ r.endDate →
            b.startDate ≤ y ∧ y ≤ b.endDate := by
      intro b hb r hr x hx1 hx2 hx3 hx4 y hy1 hy2
      have hxS : x ∈ sortBy (fun a b => a ≤ b)
          (o.Optimize.flatMap (fun r => r.dates)) :=
        hperm.mem_iff.2 ((hmemP x).2 ⟨r, hr, hx1, hx2⟩)
      have hyS : y ∈ sortBy (fun a b => a ≤ b)
          (o.Optimize.flatMap (fun r => r.dates)) :=
        hperm.mem_iff.2 ((hmemP y).2 ⟨r, hr, hy1, hy2⟩)
      rcases lt_trichotomy y x with hyx | rfl | hyx
      · have hall : ∀ z, y < z → z < x →
            dtbFree o.holidays o.workWeek z = true ∨
              z ∈ sortBy (fun a b => a ≤ b)
                (o.Optimize.flatMap (fun r => r.dates)) := by
          intro z hz1 hz2
          exact Or.inr (hperm.mem_iff.2
            ((hmemP z).2 ⟨r, hr, by omega, by omega⟩))
        obtain ⟨b', hb', hm1, hm2⟩ :=
          (dtb_sameBlock_iff _ _ hfin y x hyS hxS hyx).2 hall
        obtain ⟨-, hw2, -, -, -⟩ := hwfF b' hb'
        rw [hw2, mem_rangeList] at hm1 hm2
        have hbb : b' = b := huniq b' hb' b hb x hm2.1 hm2.2 hx3 hx4
        rw [hbb] at hm1
        exact hm1
      · exact ⟨hx3, hx4⟩
      · have hall : ∀ z, x < z → z < y →
            dtbFree o.holidays o.workWeek z = true ∨
              z ∈ sortBy (fun a b => a ≤ b)
                (o.Optimize.flatMap (fun r => r.dates)) := by
          intro z hz1 hz2
          exact Or.inr (hperm.mem_iff.2
            ((hmemP z).2 ⟨r, hr, by omega, by omega⟩))
        obtain ⟨b', hb', hm1, hm2⟩ :=
          (dtb_sameBlock_iff _ _ hfin x y hxS hyS hyx).2 hall
        obtain ⟨-, hw2, -, -, -⟩ := hwfF b' hb'
        rw [hw2, mem_rangeList] at hm1 hm2
        have hbb : b' = b := huniq b' hb' b hb x hm1.1 hm1.2 hx3 hx4
        rw [hbb] at hm2
        exact hm2
    have honly : ∀ b ∈ datesToBlocksSorted o.holidays o.workWeek
          (sortBy (fun a b => a ≤ b) (o.Optimize.flatMap (fun r => r.dates))),
        ∀ r ∈ o.Optimize, ∀ x : Int,
          r.startDate ≤ x → x ≤ r.endDate → b.startDate ≤ x → x ≤ b.endDate →
          ∀ y : Int, y ∈ o.Optimize.flatMap (fun r => r.dates) →
            b.startDate ≤ y → y ≤ b.endDate →
            r.startDate ≤ y ∧ y ≤ r.endDate := by
      intro b hb r hr x hx1 hx2 hx3 hx4 y hyP hyb1 hyb2
      obtain ⟨r', hr', hy1, hy2⟩ := (hmemP y).1 hyP
      by_cases hrr : r' = r
      · rw [hrr] at hy1 hy2
        exact ⟨hy1, hy2⟩
      · exfalso
        have hdisj : r'.endDate < r.startDate ∨ r.endDate < r'.startDate := by
          by_contra hcon
          push_neg at hcon
          obtain ⟨hc1, hc2⟩ := hcon
          rcases le_total r.startDate r'.startDate with hmx | hmx
          · have hz1 : r'.startDate ∈ r.dates := by
              rw [(hshape r hr).2, mem_rangeList]
              exact ⟨hmx, hc2⟩
            have hz2 : r'.startDate ∈ r'.dates := by
              rw [(hshape r' hr').2, mem_rangeList]
              exact ⟨le_refl _, (hshape r' hr').1⟩
            rcases pairwise_mem_cases hpw r hr r' hr' with he | hrel | hrel
            · exact hrr he.symm
            · exact hrel _ hz1 hz2
            · exact hrel _ hz2 hz1
          · have hz1 : r.startDate ∈ r'.dates := by
              rw [(hshape r' hr').2, mem_rangeList]
              exact ⟨hmx, hc1⟩
            have hz2 : r.startDate ∈ r.dates := by
              rw [(hshape r hr).2, mem_rangeList]
              exact ⟨le_refl _, (hshape r hr).1⟩
            rcases pairwise_mem_cases hpw r hr r' hr' with he | hrel | hrel
            · exact hrr he.symm
            · exact hrel _ hz2 hz1
            · exact hrel _ hz1 hz2
        obtain ⟨-, -, -, hrange, -⟩ := hwfF b hb
        rcases hdisj with hord | hord
        · obtain ⟨g, hg1, hg2, hg3, hg4⟩ := hsep r' hr' r hr hord
          rcases hrange g (by omega) (by omega) with hgS | hgF
          · obtain ⟨C, hC, hC1, hC2⟩ := (hmemP g).1 (hperm.mem_iff.1 hgS)
            exact hg4 C hC ⟨hC1, hC2⟩
          · rw [hgF] at hg3
            cases hg3
        · obtain ⟨g, hg1, hg2, hg3, hg4⟩ := hsep r hr r' hr' hord
          rcases hrange g (by omega) (by omega) with hgS | hgF
          · obtain ⟨C, hC, hC1, hC2⟩ := (hmemP g).1 (hperm.mem_iff.1 hgS)
            exact hg4 C hC ⟨hC1, hC2⟩
          · rw [hgF] at hg3
            cases hg3
    have hkey : ∀ b ∈ datesToBlocksSorted o.holidays o.workWeek
          (sortBy (fun a b => a ≤ b) (o.Optimize.flatMap (fun r => r.dates))),
        ∀ r ∈ o.Optimize, ∀ x : Int,
          r.startDate ≤ x → x ≤ r.endDate → b.startDate ≤ x → x ≤ b.endDate →
          b.startDate = dtbBackPoint o.holidays o.workWeek r.startDate ∧
          b.endDate = dtbFwdPoint o.holidays o.workWeek r.endDate := by
      intro b hb r hr x hx1 hx2 hx3 hx4
      have hsh := hshape r hr
      have hrs := hcontain b hb r hr x hx1 hx2 hx3 hx4 r.startDate (le_refl _) hsh.1
      have hre := hcontain b hb r hr x hx1 hx2 hx3 hx4 r.endDate hsh.1 (le_refl _)
      obtain ⟨hwb1, -, hwb3, hrange, -⟩ := hwfF b hb
      constructor
      · refine (backPoint_unique hw r.startDate b.startDate hrs.1 ?_ hwb3).symm
        intro z hz1 hz2
        rcases hrange z hz1 (by omega) with hzS | hzF
        · exfalso
          have := honly b hb r hr x hx1 hx2 hx3 hx4 z
            (hperm.mem_iff.1 hzS) hz1 (by omega)
          omega
        · exact hzF
      · refine (fwdPoint_unique hw r.endDate b.endDate hre.2 ?_
          (hclosedF b hb)).symm
        intro z hz1 hz2
        rcases hrange z (by omega) hz2 with hzS | hzF
        · exfalso
          have := honly b hb r hr x hx1 hx2 hx3 hx4 z
            (hperm.mem_iff.1 hzS) (by omega) hz2
          omega
        · exact hzF
    constructor
    · intro b hb
      rw [hdtb] at hb
      obtain ⟨-, -, -, -, d, hdS, hd1, hd2⟩ := hwfF b hb
      obtain ⟨r, hr, hr1, hr2⟩ := (hmemP d).1 (hperm.mem_iff.1 hdS)
      exact ⟨r, hr, hkey b hb r hr d hr1 hr2 hd1 hd2⟩
    · intro r hr
      have hsS : r.startDate ∈ sortBy (fun a b => a ≤ b)
          (o.Optimize.flatMap (fun r => r.dates)) :=
        hperm.mem_iff.2 ((hmemP r.startDate).2 ⟨r, hr, le_refl _, (hshape r hr).1⟩)
      obtain ⟨b, hb, hb1, hb2⟩ := hcoverF r.startDate hsS
      refine ⟨b, ?_, hkey b hb r hr r.startDate (le_refl _) (hshape r hr).1 hb1 hb2⟩
      rw [hdtb]
      exact hb

/-- Concrete optimizer instance for the C7 witness: one Thursday holiday,
bridge strategy, one vacation day; `Optimize` returns a single block, so the
separation hypothesis holds vacuously. -/
def oW7 : Optimizer :=
  { year := 2024
    vacationDays := 1
    workWeek := wwStd
    strategy := "bridge_holidays"
    holidays := [11]
    manualVacations := [] }

/-- Witness for the amended C7 at the concrete instance `oW7`. -/
theorem claim_C7_witness :
    (∀ b ∈ datesToBlocks oW7.holidays oW7.workWeek
        ((oW7.Optimize.flatMap (fun r => r.dates)).map some),
      ∃ r ∈ oW7.Optimize,
        b.startDate = dtbBackPoint oW7.holidays oW7.workWeek r.startDate ∧
        b.endDate = dtbFwdPoint oW7.holidays oW7.workWeek r.endDate) ∧
    (∀ r ∈ oW7.Optimize,
      ∃ b ∈ datesToBlocks oW7.holidays oW7.workWeek
          ((oW7.Optimize.flatMap (fun r => r.dates)).map some),
        b.startDate = dtbBackPoint oW7.holidays oW7.workWeek r.startDate ∧
        b.endDate = dtbFwdPoint oW7.holidays oW7.workWeek r.endDate) :=
  claim_C7_amended oW7 ⟨.monday, by decide⟩
    (fun A hA B hB hAB =>
      absurd hAB ((by decide :
        ∀ A ∈ oW7.Optimize, ∀ B ∈ oW7.Optimize,
          ¬ (A.endDate < B.startDate)) A hA B hB))

end VacationPlanner
